import Mathlib

/-!
Verification of the abstract-merging script (script.py).

The program is a three-pass streaming join over two JSON files:
collect the lookup keys of profiles missing an abstract, resolve those
keys against an abstracts corpus, and rewrite the profiles file with the
resolved abstract texts filled in.  We embed the passes shallowly:

  - JSON values are the inductive type Json; a parsed JSON object
    (a Python dict as produced by json.loads or ijson) is a list of
    key/value pairs with insertion order and unique keys.
  - Python dict.get, dict assignment, set.add, set.discard are modelled
    by the corresponding association-list / list operations.
  - Attribute errors raised by the chained access
    profile.get(field, default).get(key) on a non-dict value are modelled
    by an Except monad; a run that raises propagates the error.
  - The external JSON codec (json.loads / json.dumps with their default
    settings, and ijson's element-at-a-time array streaming) is modelled
    by an executable renderer and parser over character lists, defined
    later in this file.  The encoder's ASCII escaping of characters
    outside the basic set is not modelled: characters other than the
    quote, the backslash and the common control characters are carried
    literally, which the accompanying parser accepts.  Numbers are
    modelled as integers.
-/

inductive Json where
  | null : Json
  | bool : Bool → Json
  | num : Int → Json
  | str : String → Json
  | arr : List Json → Json
  | obj : List (String × Json) → Json
deriving Repr

mutual
def Json.beq : Json → Json → Bool
  | .null, .null => true
  | .bool a, .bool b => a == b
  | .num a, .num b => a == b
  | .str a, .str b => a == b
  | .arr a, .arr b => Json.beqList a b
  | .obj a, .obj b => Json.beqFields a b
  | _, _ => false
def Json.beqList : List Json → List Json → Bool
  | [], [] => true
  | a :: as, b :: bs => Json.beq a b && Json.beqList as bs
  | _, _ => false
def Json.beqFields : List (String × Json) → List (String × Json) → Bool
  | [], [] => true
  | (k1, v1) :: as, (k2, v2) :: bs => k1 == k2 && Json.beq v1 v2 && Json.beqFields as bs
  | _, _ => false
end

mutual
/-- Reflexivity of the Boolean equality, as a definition so that the
instances below can precede the theorem development. -/
def Json.beqRefl : ∀ j : Json, Json.beq j j = true
  | .null => rfl
  | .bool a => by simp [Json.beq]
  | .num a => by simp [Json.beq]
  | .str a => by simp [Json.beq]
  | .arr a => by simp [Json.beq, Json.beqListRefl a]
  | .obj a => by simp [Json.beq, Json.beqFieldsRefl a]
/-- Reflexivity for element lists. -/
def Json.beqListRefl : ∀ l : List Json, Json.beqList l l = true
  | [] => rfl
  | a :: as => by simp [Json.beqList, Json.beqRefl a, Json.beqListRefl as]
/-- Reflexivity for member lists. -/
def Json.beqFieldsRefl : ∀ l : List (String × Json), Json.beqFields l l = true
  | [] => rfl
  | (k, v) :: as => by simp [Json.beqFields, Json.beqRefl v, Json.beqFieldsRefl as]
end

mutual
/-- Soundness of the Boolean equality. -/
def Json.eqOfBeq : ∀ {a b : Json}, Json.beq a b = true → a = b
  | .null, .null, _ => rfl
  | .bool a, .bool b, h => by simp [Json.beq] at h; simp [h]
  | .num a, .num b, h => by simp [Json.beq] at h; simp [h]
  | .str a, .str b, h => by simp [Json.beq] at h; simp [h]
  | .arr a, .arr b, h => by
      simp only [Json.beq] at h
      simp [Json.eqListOfBeq h]
  | .obj a, .obj b, h => by
      simp only [Json.beq] at h
      simp [Json.eqFieldsOfBeq h]
/-- Soundness for element lists. -/
def Json.eqListOfBeq : ∀ {a b : List Json}, Json.beqList a b = true → a = b
  | [], [], _ => rfl
  | x :: xs, y :: ys, h => by
      simp only [Json.beqList, Bool.and_eq_true] at h
      simp [Json.eqOfBeq h.1, Json.eqListOfBeq h.2]
/-- Soundness for member lists. -/
def Json.eqFieldsOfBeq : ∀ {a b : List (String × Json)}, Json.beqFields a b = true → a = b
  | [], [], _ => rfl
  | (k1, v1) :: xs, (k2, v2) :: ys, h => by
      simp only [Json.beqFields, Bool.and_eq_true, beq_iff_eq] at h
      simp [h.1.1, Json.eqOfBeq h.1.2, Json.eqFieldsOfBeq h.2]
end

instance : BEq Json := ⟨Json.beq⟩

instance : LawfulBEq Json where
  eq_of_beq := Json.eqOfBeq
  rfl := Json.beqRefl _

instance : DecidableEq Json := fun a b =>
  if h : Json.beq a b = true then .isTrue (Json.eqOfBeq h)
  else .isFalse (fun he => h (he ▸ Json.beqRefl a))

instance {ε α : Type} [DecidableEq ε] [DecidableEq α] : DecidableEq (Except ε α)
  | .error a, .error b =>
      if h : a = b then .isTrue (by rw [h]) else .isFalse (by simp [h])
  | .error _, .ok _ => .isFalse (by simp)
  | .ok _, .error _ => .isFalse (by simp)
  | .ok a, .ok b =>
      if h : a = b then .isTrue (by rw [h]) else .isFalse (by simp [h])

/-- Python truthiness of a JSON value as returned by json.loads: None,
False, 0, and empty strings/lists/dicts are falsy. -/
def Json.truthy : Json → Bool
  | .null => false
  | .bool b => b
  | .num n => n != 0
  | .str s => !s.isEmpty
  | .arr xs => !xs.isEmpty
  | .obj fs => !fs.isEmpty

/-- A parsed JSON object, i.e. a Python dict: key/value pairs in insertion
order.  Dicts produced by the JSON decoder have unique keys. -/
abbrev JRec := List (String × Json)

/-- Association-list lookup, modelling Python d.get(k) on a dict with
unique keys (returns the value of the first matching key). -/
def dictGet [BEq α] : List (α × β) → α → Option β
  | [], _ => none
  | (k', v) :: rest, k => if k' == k then some v else dictGet rest k

/-- Python dict assignment d[k] = v: replace the value in place if the key
exists, otherwise append the new pair at the end. -/
def dictSet [BEq α] : List (α × β) → α → β → List (α × β)
  | [], k, v => [(k, v)]
  | (k', v') :: rest, k, v =>
      if k' == k then (k', v) :: rest else (k', v') :: dictSet rest k v

/-- Python set.add modelled on a duplicate-free list: append if absent. -/
def setAdd [BEq α] (s : List α) (x : α) : List α :=
  if s.contains x then s else s ++ [x]

/-- Errors the script can raise and does not catch. -/
inductive PyErr where
  /-- AttributeError from calling a dict/str method on a value of the
  wrong runtime type. -/
  | attributeError : PyErr
  /-- A fatal JSON parse error from the streaming parse of an array file. -/
  | jsonError : PyErr
deriving DecidableEq, Repr

/-- Python str.strip: drop whitespace from both ends. -/
def pyStrip (s : String) : String :=
  String.mk (((s.data.dropWhile Char.isWhitespace).reverse.dropWhile Char.isWhitespace).reverse)

/-- Python str.lower, restricted to its ASCII behaviour. -/
def pyLower (s : String) : String :=
  String.mk (s.data.map Char.toLower)

/-- The DOI normalization doi.strip().lower() used at lines 61, 77, 105,
130, 163 and 187 of script.py.  Raises AttributeError when the value the
script calls .strip() on is not a string. -/
def pyStripLower (j : Json) : Except PyErr String :=
  match j with
  | .str s => .ok (pyLower (pyStrip s))
  | _ => .error .attributeError

/-- The chained access profile.get(field, default-empty-dict).get(key) of
script.py (lines 56, 72, 96, 122, 157, 181): the default is used only when
the field is absent; a present non-dict value (null included) raises
AttributeError on the inner .get. -/
def getOid (p : JRec) (field : String) : Except PyErr (Option Json) :=
  match (dictGet p field).getD (Json.obj []) with
  | .obj fs => .ok (dictGet fs "$oid")
  | _ => .error .attributeError

/-- The test at lines 55, 71, 156 and 180: profile.get(.) is None exactly
when the abstract field is absent or holds JSON null. -/
def abstractMissing (p : JRec) : Bool :=
  match dictGet p "abstract" with
  | none => true
  | some .null => true
  | some _ => false

/-- ijson / json.loads hand the script arbitrary JSON values; every field
access on a non-object element raises AttributeError. -/
def asRec (j : Json) : Except PyErr JRec :=
  match j with
  | .obj fs => .ok fs
  | _ => .error .attributeError

/-- The two needed-key sets built by the first pass (lines 47-48). -/
structure Needed where
  ids : List Json
  dois : List String
deriving DecidableEq, Repr

/-- One profile of the first pass (script.py lines 54-61 and 71-77, the
two format branches run identical per-record logic): when the abstract is
missing, add a truthy publication_id.$oid to the needed IDs, and the
normalized publication_DOI, when truthy, to the needed DOIs. -/
def collectStep (acc : Needed) (profile : JRec) : Except PyErr Needed := do
  if abstractMissing profile then
    let pubId ← getOid profile "publication_id"
    let acc1 :=
      match pubId with
      | some j => if j.truthy then { acc with ids := setAdd acc.ids j } else acc
      | none => acc
    match dictGet profile "publication_DOI" with
    | some j =>
        if j.truthy then do
          let key ← pyStripLower j
          pure { acc1 with dois := setAdd acc1.dois key }
        else pure acc1
    | none => pure acc1
  else
    pure acc

/-- One element of a streamed file: none stands for a line that failed
json.loads and was skipped with a warning (lines 66-70); array-format
streams contain no such elements. -/
abbrev StreamElem := Option Json

/-- The collection pass over the whole profiles stream. -/
def collectStream (stream : List StreamElem) : Except PyErr Needed :=
  stream.foldlM
    (fun acc elem =>
      match elem with
      | none => pure acc
      | some j => do collectStep acc (← asRec j))
    ⟨[], []⟩

/-- The resolver state of the second pass (script.py lines 86-89):
the two key-to-text mappings being built and the mutable copies of the
needed-key sets. -/
structure ResolveSt where
  idToAbstract : List (Json × Json)
  doiToAbstract : List (String × Json)
  remainingIds : List Json
  remainingDois : List String
deriving DecidableEq, Repr

/-- Initial resolver state (lines 86-89): empty mappings, remaining sets
copied from the needed sets. -/
def initResolveSt (nd : Needed) : ResolveSt :=
  ⟨[], [], nd.ids, nd.dois⟩

/-- One abstracts record of the second pass (lines 96-110 and 122-135,
identical in the two format branches).  The ID branch: when a truthy
_id.$oid is still in the remaining IDs, store a truthy cleaned abstract
in the ID mapping and, whether or not text was stored, discard the ID
from the remaining set.  The DOI branch runs independently with the
normalized publication_doi against the remaining DOIs. -/
def resolveStep (st : ResolveSt) (rec : JRec) : Except PyErr ResolveSt := do
  let recId ← getOid rec "_id"
  let st1 :=
    match recId with
    | some j =>
        if j.truthy && st.remainingIds.contains j then
          let st' :=
            match dictGet rec "publication_abstract_cleaned" with
            | some t =>
                if t.truthy then
                  { st with idToAbstract := dictSet st.idToAbstract j t }
                else st
            | none => st
          { st' with remainingIds := st'.remainingIds.erase j }
        else st
    | none => st
  match dictGet rec "publication_doi" with
  | some j =>
      if j.truthy then do
        let key ← pyStripLower j
        if st1.remainingDois.contains key then
          let st' :=
            match dictGet rec "publication_abstract_cleaned" with
            | some t =>
                if t.truthy then
                  { st1 with doiToAbstract := dictSet st1.doiToAbstract key t }
                else st1
            | none => st1
          pure { st' with remainingDois := st'.remainingDois.erase key }
        else pure st1
      else pure st1
  | none => pure st1

/-- The resolver loop with its early break (lines 95-113 and 117-137):
after each successfully parsed record, stop as soon as both remaining
sets are empty; a line that failed to parse is skipped by a continue
statement, which also skips the break check. -/
def resolveLoop : ResolveSt → List StreamElem → Except PyErr ResolveSt
  | st, [] => .ok st
  | st, none :: rest => resolveLoop st rest
  | st, some j :: rest => do
      let st' ← resolveStep st (← asRec j)
      if st'.remainingIds.isEmpty && st'.remainingDois.isEmpty then pure st'
      else resolveLoop st' rest

/-- The same scan without the early break, used to state that the break
is a pure optimization (spec section 4.3). -/
def resolveLoopFull : ResolveSt → List StreamElem → Except PyErr ResolveSt
  | st, [] => .ok st
  | st, none :: rest => resolveLoopFull st rest
  | st, some j :: rest => do
      let st' ← resolveStep st (← asRec j)
      resolveLoopFull st' rest

/-- The merge of one profile in the third pass (lines 156-165 and
180-189, identical in the two format branches): when the abstract is
missing, first look the truthy publication_id.$oid up in the ID mapping;
only on a miss, look the normalized truthy publication_DOI up in the DOI
mapping; on a hit assign the found text to the abstract field. -/
def mergeProfile (idM : List (Json × Json)) (doiM : List (String × Json))
    (p : JRec) : Except PyErr JRec := do
  if abstractMissing p then
    let pubId ← getOid p "publication_id"
    let idHit :=
      match pubId with
      | some j => if j.truthy then dictGet idM j else none
      | none => none
    match idHit with
    | some t => pure (dictSet p "abstract" t)
    | none =>
        match dictGet p "publication_DOI" with
        | some j =>
            if j.truthy then do
              let key ← pyStripLower j
              match dictGet doiM key with
              | some t => pure (dictSet p "abstract" t)
              | none => pure p
            else pure p
        | none => pure p
  else
    pure p

/-- The merge applied to the elements of an array-format profiles file
(lines 153-170): every element is treated as a dict and written back in
order. -/
def mergeItems (idM : List (Json × Json)) (doiM : List (String × Json)) :
    List Json → Except PyErr (List JRec)
  | [] => .ok []
  | j :: rest => do
      let q ← mergeProfile idM doiM (← asRec j)
      let qs ← mergeItems idM doiM rest
      pure (q :: qs)

/-- The merge applied to the lines of a line-format profiles file
(lines 173-190): a line that failed to parse is skipped with a warning
and produces no output line; parsed lines are merged and written in
order. -/
def mergeLines (idM : List (Json × Json)) (doiM : List (String × Json)) :
    List StreamElem → Except PyErr (List JRec)
  | [] => .ok []
  | none :: rest => mergeLines idM doiM rest
  | some j :: rest => do
      let q ← mergeProfile idM doiM (← asRec j)
      let qs ← mergeLines idM doiM rest
      pure (q :: qs)

/-! The JSON codec model.  The script delegates serialization to
json.dumps with its default separators and deserialization to json.loads
and ijson; both are external libraries, modelled here by an executable
renderer and parser over character lists. -/

/-- Escaping of one character inside a JSON string literal, as the
encoder performs it for the quote, the backslash and the common control
characters; other characters are carried literally. -/
def escChar (c : Char) : List Char :=
  if c = '"' then ['\\', '"']
  else if c = '\\' then ['\\', '\\']
  else if c = '\n' then ['\\', 'n']
  else if c = '\t' then ['\\', 't']
  else if c = '\r' then ['\\', 'r']
  else [c]

/-- Escaping of a whole string body. -/
def escList : List Char → List Char
  | [] => []
  | c :: rest => escChar c ++ escList rest

/-- Decimal rendering of a natural number. -/
def renderNat (n : Nat) : List Char :=
  if n = 0 then ['0'] else ((Nat.digits 10 n).map Nat.digitChar).reverse

/-- Decimal rendering of an integer, as the encoder prints ints. -/
def renderInt (i : Int) : List Char :=
  if i < 0 then '-' :: renderNat i.natAbs else renderNat i.toNat

mutual
/-- The compact rendering of a JSON value: json.dumps with the default
separators (comma-space between items, colon-space after keys). -/
def dumpsL : Json → List Char
  | .null => 'n' :: ['u', 'l', 'l']
  | .bool true => 't' :: ['r', 'u', 'e']
  | .bool false => ['f', 'a', 'l', 's', 'e']
  | .num i => renderInt i
  | .str s => ('"' :: escList s.data) ++ ['"']
  | .arr xs => ('[' :: dumpsItems xs) ++ [']']
  | .obj fs => ('{' :: dumpsFields fs) ++ ['}']
/-- Comma-space separated renderings of array elements. -/
def dumpsItems : List Json → List Char
  | [] => []
  | [x] => dumpsL x
  | x :: xs => dumpsL x ++ (',' :: ' ' :: dumpsItems xs)
/-- Comma-space separated key-colon-space-value renderings of object
members. -/
def dumpsFields : List (String × Json) → List Char
  | [] => []
  | [(k, v)] => (('"' :: escList k.data) ++ ['"', ':', ' ']) ++ dumpsL v
  | (k, v) :: fs =>
      ((('"' :: escList k.data) ++ ['"', ':', ' ']) ++ dumpsL v) ++ (',' :: ' ' :: dumpsFields fs)
end

/-- Interleave a separator between the chunks of a list. -/
def sepList (sep : List Char) : List (List Char) → List Char
  | [] => []
  | [x] => x
  | x :: xs => x ++ sep ++ sepList sep xs

/-- The content the array-mode writer emits (script.py lines 148-171):
an opening bracket and newline, the merged profiles joined by
comma-newline, then newline, closing bracket, newline. -/
def arrayFileContent (outs : List JRec) : List Char :=
  ['[', '\n'] ++ sepList [',', '\n'] (outs.map (fun r => dumpsL (.obj r))) ++ ['\n', ']', '\n']

/-- The content the line-mode writer emits (lines 172-190): each merged
profile dumped compactly and terminated by a newline. -/
def ndFileContent (outs : List JRec) : List Char :=
  outs.foldr (fun r acc => dumpsL (.obj r) ++ ('\n' :: acc)) []

/-- Split a character stream at newline characters, modelling how the
script iterates over the lines of a text file.  A trailing newline yields
a final empty chunk, which parses as a malformed (hence skipped) line;
Python's line iterator simply does not produce it, with identical effect
on every pass. -/
def splitNl : List Char → List (List Char)
  | [] => [[]]
  | c :: rest =>
      if c = '\n' then [] :: splitNl rest
      else
        match splitNl rest with
        | l :: ls => (c :: l) :: ls
        | [] => [[c]]

/-- Skip JSON whitespace. -/
def skipWs (l : List Char) : List Char := l.dropWhile Char.isWhitespace

/-- Decode a character escaped by a backslash in a JSON string literal. -/
def escDecode (c : Char) : Option Char :=
  if c = '"' then some '"'
  else if c = '\\' then some '\\'
  else if c = '/' then some '/'
  else if c = 'n' then some '\n'
  else if c = 't' then some '\t'
  else if c = 'r' then some '\r'
  else if c = 'b' then some (Char.ofNat 8)
  else if c = 'f' then some (Char.ofNat 12)
  else none

/-- Read a JSON string body up to the closing quote, decoding escapes
(the four-hex-digit form is not modelled). -/
def parseStringBody : List Char → Option (List Char × List Char)
  | [] => none
  | c :: rest =>
      if c = '"' then some ([], rest)
      else if c = '\\' then
        match rest with
        | [] => none
        | e :: rest' =>
            match escDecode e with
            | some d =>
                match parseStringBody rest' with
                | some (s, r) => some (d :: s, r)
                | none => none
            | none => none
      else
        match parseStringBody rest with
        | some (s, r) => some (c :: s, r)
        | none => none

/-- Numeric value of a digit sequence. -/
def digitsToNat (ds : List Char) : Nat :=
  ds.foldl (fun acc c => 10 * acc + (c.toNat - 48)) 0

/-- Read an integer literal (a minus sign and a digit run); the
fractional and exponent forms of JSON numbers are not modelled. -/
def parseNum (l : List Char) : Option (Int × List Char) :=
  match l with
  | '-' :: rest =>
      let ds := rest.takeWhile Char.isDigit
      if ds.isEmpty then none
      else some (-(digitsToNat ds : Int), rest.dropWhile Char.isDigit)
  | _ =>
      let ds := l.takeWhile Char.isDigit
      if ds.isEmpty then none
      else some ((digitsToNat ds : Int), l.dropWhile Char.isDigit)

/-- Python dict construction from parsed members: later occurrences of a
key overwrite earlier ones in place. -/
def dedupFields (fs : List (String × Json)) : List (String × Json) :=
  fs.foldl (fun acc kv => dictSet acc kv.1 kv.2) []

mutual
/-- Recursive-descent read of one JSON value, with a fuel bound on the
recursion depth. -/
def parseVal : Nat → List Char → Option (Json × List Char)
  | 0, _ => none
  | fuel + 1, l =>
      match skipWs l with
      | 'n' :: 'u' :: 'l' :: 'l' :: r => some (.null, r)
      | 't' :: 'r' :: 'u' :: 'e' :: r => some (.bool true, r)
      | 'f' :: 'a' :: 'l' :: 's' :: 'e' :: r => some (.bool false, r)
      | '"' :: r =>
          match parseStringBody r with
          | some (s, r') => some (.str (String.mk s), r')
          | none => none
      | '[' :: r =>
          (match skipWs r with
           | ']' :: r' => some (.arr [], r')
           | _ =>
              match parseItems fuel r with
              | some (xs, r') => some (.arr xs, r')
              | none => none)
      | '{' :: r =>
          (match skipWs r with
           | '}' :: r' => some (.obj [], r')
           | _ =>
              match parseMembers fuel r with
              | some (fs, r') => some (.obj (dedupFields fs), r')
              | none => none)
      | l' =>
          match parseNum l' with
          | some (i, r) => some (.num i, r)
          | none => none
/-- Read the comma-separated elements of a non-empty array, up to and
including the closing bracket. -/
def parseItems : Nat → List Char → Option (List Json × List Char)
  | 0, _ => none
  | fuel + 1, l =>
      match parseVal fuel l with
      | some (x, r) =>
          (match skipWs r with
           | ',' :: r' =>
              (match parseItems fuel r' with
               | some (xs, r'') => some (x :: xs, r'')
               | none => none)
           | ']' :: r' => some ([x], r')
           | _ => none)
      | none => none
/-- Read the comma-separated members of a non-empty object, up to and
including the closing brace. -/
def parseMembers : Nat → List Char → Option (List (String × Json) × List Char)
  | 0, _ => none
  | fuel + 1, l =>
      match skipWs l with
      | '"' :: r =>
          (match parseStringBody r with
           | some (k, r1) =>
              (match skipWs r1 with
               | ':' :: r2 =>
                  (match parseVal fuel r2 with
                   | some (v, r3) =>
                      (match skipWs r3 with
                       | ',' :: r4 =>
                          (match parseMembers fuel r4 with
                           | some (fs, r5) => some ((String.mk k, v) :: fs, r5)
                           | none => none)
                       | '}' :: r4 => some ([(String.mk k, v)], r4)
                       | _ => none)
                   | none => none)
               | _ => none)
           | none => none)
      | _ => none
end

/-- Parse a whole character stream as one JSON document: one value
surrounded only by whitespace.  The fuel is ample for any rendered
value, as proved below. -/
def parseJsonList (l : List Char) : Option Json :=
  match parseVal (l.length + 1) l with
  | some (j, r) => if (skipWs r).isEmpty then some j else none
  | none => none

/-- json.loads on a string. -/
def parseJsonStr (s : String) : Option Json := parseJsonList s.data

/-- The two recognized file encodings (script.py lines 11-28). -/
inductive JFormat where
  | array : JFormat
  | ndjson : JFormat
deriving DecidableEq, Repr

/-- detect_json_format (script.py lines 11-28): skip leading whitespace
and classify the file by its first significant character; none models
the unrecognized-format return (empty file included). -/
def detect_json_format (s : String) : Option JFormat :=
  match skipWs s.data with
  | [] => none
  | c :: _ =>
      if c = '[' then some .array
      else if c = '{' then some .ndjson
      else none

/-- ijson.items(f, item): the elements of the top-level array; a file
that cannot be parsed as an array raises a fatal streaming-parse error. -/
def loadArrayItems (s : String) : Except PyErr (List Json) :=
  match parseJsonStr s with
  | some (.arr xs) => .ok xs
  | _ => .error .jsonError

/-- Line mode: each line decoded independently, none marking a line that
json.loads rejects. -/
def loadLines (s : String) : List StreamElem :=
  (splitNl s.data).map (fun l => parseJsonList l)

/-- The stream of records of a file in the given format. -/
def loadStream (fmt : JFormat) (s : String) : Except PyErr (List StreamElem) :=
  match fmt with
  | .array => do pure ((← loadArrayItems s).map some)
  | .ndjson => .ok (loadLines s)

/-- The whole of main (script.py lines 30-192) on the contents of the two
input files, in the single-output-file mode the script implements:
ok none models the early returns of lines 78-80 and 138-140 (error
logged, no output written); ok (some content) is the text written to the
output file; error models an uncaught exception.  The format of the
profiles file is re-detected before the third pass (line 146), and the
writer treats every non-array detection result as line format
(line 172). -/
def mainRun (rawContent absContent : String) : Except PyErr (Option String) := do
  match detect_json_format rawContent with
  | none => pure none
  | some rawFmt => do
    let stream ← loadStream rawFmt rawContent
    let nd ← collectStream stream
    match detect_json_format absContent with
    | none => pure none
    | some absFmt => do
      let astream ← loadStream absFmt absContent
      let st ← resolveLoop (initResolveSt nd) astream
      match detect_json_format rawContent with
      | some .array => do
          let items ← loadArrayItems rawContent
          let out ← mergeItems st.idToAbstract st.doiToAbstract items
          pure (some (String.mk (arrayFileContent out)))
      | _ => do
          let out ← mergeLines st.idToAbstract st.doiToAbstract (loadLines rawContent)
          pure (some (String.mk (ndFileContent out)))

/-- Distinctness of the keys of an object, as a Python dict guarantees. -/
def keysNodup : List (String × Json) → Bool
  | [] => true
  | (k, _) :: rest => !(rest.any (fun kv => kv.1 == k)) && keysNodup rest

mutual
/-- Well-formed JSON values: every object has pairwise distinct keys.
Values decoded from text always satisfy this. -/
def Json.wf : Json → Bool
  | .arr xs => Json.wfList xs
  | .obj fs => keysNodup fs && Json.wfFields fs
  | _ => true
/-- Well-formedness of every element of a list. -/
def Json.wfList : List Json → Bool
  | [] => true
  | x :: xs => Json.wf x && Json.wfList xs
/-- Well-formedness of every member value of an object. -/
def Json.wfFields : List (String × Json) → Bool
  | [] => true
  | (_, v) :: fs => Json.wf v && Json.wfFields fs
end

mutual
/-- Recursion depth needed to parse the rendering of a value. -/
def fuelVal : Json → Nat
  | .arr xs => 1 + fuelItems xs
  | .obj fs => 1 + fuelMembers fs
  | _ => 1
/-- Depth needed for a rendered element list. -/
def fuelItems : List Json → Nat
  | [] => 1
  | [x] => 1 + fuelVal x
  | x :: xs => 1 + fuelVal x + fuelItems xs
/-- Depth needed for a rendered member list. -/
def fuelMembers : List (String × Json) → Nat
  | [] => 1
  | [(_, v)] => 1 + fuelVal v
  | (_, v) :: fs => 1 + fuelVal v + fuelMembers fs
end

/-! The split-output variant.  The repository's second script (the
"mode B" variant producing two files in an output directory) is not among
the provided sources; the definitions below are modelled from the spec
(sections 4.4 and 6) and are marked as such. -/

/-- Indentation characters for the pretty encoder. -/
def indentChars (n : Nat) : List Char := List.replicate n ' '

mutual
/-- Modelled from the spec: json.dump with indent 2, the pretty rendering
used by the missing split-output script for both of its files. -/
def prettyL : Nat → Json → List Char
  | _, .arr [] => ['[', ']']
  | ind, .arr (x :: xs) =>
      ('[' :: '\n' :: prettyItems (ind + 2) (x :: xs)) ++ ('\n' :: indentChars ind) ++ [']']
  | _, .obj [] => ['{', '}']
  | ind, .obj (f :: fs) =>
      ('{' :: '\n' :: prettyFields (ind + 2) (f :: fs)) ++ ('\n' :: indentChars ind) ++ ['}']
  | _, j => dumpsL j
/-- Pretty rendering of array elements, one per line at the given
indentation. -/
def prettyItems : Nat → List Json → List Char
  | _, [] => []
  | ind, [x] => indentChars ind ++ prettyL ind x
  | ind, x :: xs =>
      (indentChars ind ++ prettyL ind x) ++ (',' :: '\n' :: prettyItems ind xs)
/-- Pretty rendering of object members, one per line at the given
indentation. -/
def prettyFields : Nat → List (String × Json) → List Char
  | _, [] => []
  | ind, [(k, v)] =>
      (indentChars ind ++ ('"' :: escList k.data) ++ ['"', ':', ' ']) ++ prettyL ind v
  | ind, (k, v) :: fs =>
      ((indentChars ind ++ ('"' :: escList k.data) ++ ['"', ':', ' ']) ++ prettyL ind v)
        ++ (',' :: '\n' :: prettyFields ind fs)
end

/-- Modelled from the spec: the per-profile merge of the split-output
script, identical to mergeProfile but also reporting whether this run
newly filled the abstract (the record was "updated"). -/
def mergeProfileFlag (idM : List (Json × Json)) (doiM : List (String × Json))
    (p : JRec) : Except PyErr (JRec × Bool) := do
  if abstractMissing p then
    let pubId ← getOid p "publication_id"
    let idHit :=
      match pubId with
      | some j => if j.truthy then dictGet idM j else none
      | none => none
    match idHit with
    | some t => pure (dictSet p "abstract" t, true)
    | none =>
        match dictGet p "publication_DOI" with
        | some j =>
            if j.truthy then do
              let key ← pyStripLower j
              match dictGet doiM key with
              | some t => pure (dictSet p "abstract" t, true)
              | none => pure (p, false)
            else pure (p, false)
        | none => pure (p, false)
  else
    pure (p, false)

/-- Modelled from the spec: the flagged merge over a record stream,
skipping lines that failed to decode. -/
def mergeElemsFlag (idM : List (Json × Json)) (doiM : List (String × Json)) :
    List StreamElem → Except PyErr (List (JRec × Bool))
  | [] => .ok []
  | none :: rest => mergeElemsFlag idM doiM rest
  | some j :: rest => do
      let q ← mergeProfileFlag idM doiM (← asRec j)
      let qs ← mergeElemsFlag idM doiM rest
      pure (q :: qs)

/-- Modelled from the spec: the fixed name of the file holding every
profile in the split-output mode.  The spec fixes both names without
stating them; any constant stands in faithfully. -/
def modeB_allFileName : String := "all_profiles.json"

/-- Modelled from the spec: the fixed name of the file holding only the
updated profiles in the split-output mode. -/
def modeB_updatedFileName : String := "updated_profiles.json"

/-- Modelled from the spec: the whole run of the split-output variant on
the two input file contents and an output directory path: the same
sniffer, collector and resolver as mainRun, then two pretty-printed
JSON-array files under fixed names in the directory, one with every
profile and one with only the newly updated profiles. -/
def mainRunModeB (rawContent absContent dirPath : String) :
    Except PyErr (Option (List (String × String))) := do
  match detect_json_format rawContent with
  | none => pure none
  | some rawFmt => do
    let stream ← loadStream rawFmt rawContent
    let nd ← collectStream stream
    match detect_json_format absContent with
    | none => pure none
    | some absFmt => do
      let astream ← loadStream absFmt absContent
      let st ← resolveLoop (initResolveSt nd) astream
      match detect_json_format rawContent with
      | none => pure none
      | some rawFmt2 => do
        let stream2 ← loadStream rawFmt2 rawContent
        let pairs ← mergeElemsFlag st.idToAbstract st.doiToAbstract stream2
        pure (some
          [ (dirPath ++ "/" ++ modeB_allFileName,
             String.mk (prettyL 0 (Json.arr ((pairs.map Prod.fst).map Json.obj)))),
            (dirPath ++ "/" ++ modeB_updatedFileName,
             String.mk (prettyL 0 (Json.arr (((pairs.filter Prod.snd).map Prod.fst).map Json.obj)))) ])

/-- Modelled from the spec: the third positional argument names either a
single output file (mode A) or an output directory (mode B). -/
inductive OutTarget where
  | file : String → OutTarget
  | dir : String → OutTarget

/-- Modelled from the spec: dispatch on the kind of the third positional
argument: a file path runs the single-output script, a directory path
runs the split-output variant. -/
def cliRun (rawContent absContent : String) :
    OutTarget → Except PyErr (Option (List (String × String)))
  | .file path =>
      (mainRun rawContent absContent).map (Option.map (fun content => [(path, content)]))
  | .dir dirPath => mainRunModeB rawContent absContent dirPath

/-! Concrete fixtures used by the witness theorems below. -/

/-- A profile missing its abstract, carrying both an ID and a DOI. -/
def wProfile : JRec :=
  [("publication_id", Json.obj [("$oid", Json.str "A")]),
   ("publication_DOI", Json.str "10.1/ABC "),
   ("abstract", Json.null)]

/-- An abstracts record matching wProfile by ID. -/
def wAbsRec : JRec :=
  [("_id", Json.obj [("$oid", Json.str "A")]),
   ("publication_abstract_cleaned", Json.str "text1")]

/-- An abstracts record matching wProfile by DOI, with different text. -/
def wAbsRecDoi : JRec :=
  [("publication_doi", Json.str "10.1/abc"),
   ("publication_abstract_cleaned", Json.str "text2")]

/-- A profile whose publication_id field is a bare string: the nested
access raises AttributeError. -/
def wBadProfile : JRec := [("publication_id", Json.str "x")]

/-- An abstracts record whose _id field is a number: the nested access
raises AttributeError. -/
def wBadAbsRec : JRec := [("_id", Json.num 5)]

/-- A profile whose abstract is already present and non-null. -/
def wDoneProfile : JRec :=
  [("abstract", Json.str "done"), ("publication_id", Json.obj [("$oid", Json.str "A")])]

/-- The ID half of one resolver step, as a function of the extracted
_id.$oid value and the cleaned-abstract value (proof artifact used to
decompose resolveStep). -/
def resolveIdPart (st : ResolveSt) (recId : Option Json) (text : Option Json) : ResolveSt :=
  match recId with
  | some j =>
      if j.truthy && st.remainingIds.contains j then
        let st' :=
          match text with
          | some t =>
              if t.truthy then { st with idToAbstract := dictSet st.idToAbstract j t } else st
          | none => st
        { st' with remainingIds := st'.remainingIds.erase j }
      else st
  | none => st

/-- The DOI half of one resolver step (proof artifact used to decompose
resolveStep). -/
def resolveDoiPart (st : ResolveSt) (doi : Option Json) (text : Option Json) :
    Except PyErr ResolveSt :=
  match doi with
  | some j =>
      if j.truthy then do
        let key ← pyStripLower j
        if st.remainingDois.contains key then
          let st' :=
            match text with
            | some t =>
                if t.truthy then { st with doiToAbstract := dictSet st.doiToAbstract key t }
                else st
            | none => st
          pure { st' with remainingDois := st'.remainingDois.erase key }
        else pure st
      else pure st
  | none => pure st

/-- A record carries the needed ID k when its _id.$oid extraction yields
exactly the truthy value k. -/
def carriesIdB (r : JRec) (k : Json) : Bool :=
  match getOid r "_id" with
  | .ok (some j) => j == k && j.truthy
  | _ => false

/-- A record carries the needed normalized DOI key when its
publication_doi is a truthy string normalizing to that key. -/
def carriesDoiB (r : JRec) (key : String) : Bool :=
  match dictGet r "publication_doi" with
  | some (.str s) => (Json.str s).truthy && (pyLower (pyStrip s) == key)
  | _ => false

/-- A record has usable abstract text when its
publication_abstract_cleaned field is present and truthy. -/
def hasCleanedText (r : JRec) : Bool :=
  match dictGet r "publication_abstract_cleaned" with
  | some t => t.truthy
  | none => false

/-- Lift of carriesIdB to stream elements. -/
def elemCarriesId (e : StreamElem) (k : Json) : Bool :=
  match e with
  | some (.obj fs) => carriesIdB fs k
  | _ => false

/-- Lift of carriesDoiB to stream elements. -/
def elemCarriesDoi (e : StreamElem) (key : String) : Bool :=
  match e with
  | some (.obj fs) => carriesDoiB fs key
  | _ => false

/-- Lift of hasCleanedText to stream elements. -/
def elemHasCleanedText (e : StreamElem) : Bool :=
  match e with
  | some (.obj fs) => hasCleanedText fs
  | _ => false


/-- An abstracts stream whose first record carries ID A with no cleaned
text and whose second carries the same ID with text. -/
def wStreamFirstId : List StreamElem :=
  [some (Json.obj [("_id", Json.obj [("$oid", Json.str "A")])]),
   some (Json.obj [("_id", Json.obj [("$oid", Json.str "A")]),
                   ("publication_abstract_cleaned", Json.str "late")])]

/-- An abstracts stream whose first record carries the DOI key with no
cleaned text and whose second carries it with text. -/
def wStreamFirstDoi : List StreamElem :=
  [some (Json.obj [("publication_doi", Json.str "10.1/X ")]),
   some (Json.obj [("publication_doi", Json.str "10.1/x"),
                   ("publication_abstract_cleaned", Json.str "late")])]

/-- An abstracts stream that saturates the only needed ID at its first
record. -/
def wStreamSaturating : List StreamElem :=
  [some (Json.obj [("_id", Json.obj [("$oid", Json.str "A")]),
                   ("publication_abstract_cleaned", Json.str "T")]),
   some (Json.obj [("_id", Json.obj [("$oid", Json.str "B")]),
                   ("publication_abstract_cleaned", Json.str "U")])]

/-- Whether a character stream does not begin with a digit, the side
condition under which a rendered number followed by that stream reads
back unambiguously. -/
def headNotDigit (l : List Char) : Bool :=
  match l with
  | [] => true
  | c :: _ => !c.isDigit

/-! Helper lemmas about the dictionary and set operations. -/

theorem dictGet_dictSet_ne {α β : Type} [BEq α] [LawfulBEq α]
    {m : List (α × β)} {k k' : α} {v : β}
    (h : k' ≠ k) : dictGet (dictSet m k v) k' = dictGet m k' := by
  induction m with
  | nil =>
      simp only [dictSet, dictGet]
      rw [if_neg]
      simp only [beq_iff_eq]
      exact fun hh => h hh.symm
  | cons kv rest ih =>
      obtain ⟨k0, v0⟩ := kv
      simp only [dictSet]
      by_cases hbk : (k0 == k) = true
      · rw [if_pos hbk]
        have hk0 : k0 = k := eq_of_beq hbk
        have hne : ¬(k0 == k') = true := by
          simp only [beq_iff_eq, hk0]
          exact fun hh => h hh.symm
        simp only [dictGet]
        rw [if_neg hne, if_neg hne]
      · rw [if_neg hbk]
        simp only [dictGet]
        by_cases hbk' : (k0 == k') = true
        · rw [if_pos hbk', if_pos hbk']
        · rw [if_neg hbk', if_neg hbk', ih]

theorem dictGet_dictSet_self {α β : Type} [BEq α] [LawfulBEq α]
    {m : List (α × β)} {k : α} {v : β} :
    dictGet (dictSet m k v) k = some v := by
  induction m with
  | nil =>
      simp only [dictSet, dictGet]
      rw [if_pos]
      simp
  | cons kv rest ih =>
      obtain ⟨k0, v0⟩ := kv
      simp only [dictSet]
      by_cases hbk : (k0 == k) = true
      · rw [if_pos hbk]
        simp only [dictGet]
        rw [if_pos hbk]
      · rw [if_neg hbk]
        simp only [dictGet]
        rw [if_neg hbk]
        exact ih

/-- The merge of one profile with a needed, truthy, resolved ID assigns
the mapped text, whatever the DOI mapping holds. -/
theorem mergeProfile_hit {idM : List (Json × Json)} {doiM : List (String × Json)}
    {p : JRec} {k t : Json}
    (hm : abstractMissing p = true)
    (hoid : getOid p "publication_id" = .ok (some k))
    (ht : k.truthy = true)
    (hget : dictGet idM k = some t) :
    mergeProfile idM doiM p = .ok (dictSet p "abstract" t) := by
  simp [mergeProfile, bind, Except.bind, pure, Except.pure, hm, hoid, ht, hget]

/-- A profile whose abstract is present and non-null passes through the
merge unchanged. -/
theorem mergeProfile_not_missing {idM : List (Json × Json)} {doiM : List (String × Json)}
    {p : JRec} (hm : abstractMissing p = false) :
    mergeProfile idM doiM p = .ok p := by
  simp [mergeProfile, hm, pure, Except.pure]

/-- The merge of one profile either returns it unchanged or assigns some
text to its abstract field. -/
theorem mergeProfile_cases {idM : List (Json × Json)} {doiM : List (String × Json)}
    {p q : JRec} (h : mergeProfile idM doiM p = .ok q) :
    q = p ∨ ∃ t, q = dictSet p "abstract" t := by
  unfold mergeProfile at h
  repeat' first
    | split at h
    | simp only [bind, Except.bind, pure, Except.pure] at h
  all_goals first
    | (exact Or.inl (Except.ok.inj h).symm)
    | (exact Or.inr ⟨_, (Except.ok.inj h).symm⟩)
    | (exact Except.noConfusion h)

/-- C1: for a profile with missing abstract whose truthy
publication_id.$oid is a key of the resolved ID mapping, the merge
writer assigns the mapped text to the abstract field; the statement
holds for every DOI mapping, so an ID match takes precedence over any
DOI match that would also succeed. -/
theorem C1_id_hit_sets_abstract_and_precedes_doi
    (idM : List (Json × Json)) (doiM : List (String × Json))
    (p : JRec) (k t : Json)
    (hm : abstractMissing p = true)
    (hoid : getOid p "publication_id" = .ok (some k))
    (ht : k.truthy = true)
    (hget : dictGet idM k = some t) :
    mergeProfile idM doiM p = .ok (dictSet p "abstract" t) ∧
    dictGet (dictSet p "abstract" t) "abstract" = some t := by
  exact ⟨mergeProfile_hit hm hoid ht hget, dictGet_dictSet_self⟩

/-- Witness for C1: the fixture profile matches by ID and the assigned
text is the ID-mapped one even though the DOI mapping would also hit. -/
theorem C1_witness :
    abstractMissing wProfile = true ∧
    mergeProfile [(Json.str "A", Json.str "text1")]
      [(pyLower (pyStrip "10.1/ABC "), Json.str "text2")] wProfile =
      .ok (dictSet wProfile "abstract" (Json.str "text1")) :=
  ⟨by decide,
   (C1_id_hit_sets_abstract_and_precedes_doi
      [(Json.str "A", Json.str "text1")]
      [(pyLower (pyStrip "10.1/ABC "), Json.str "text2")]
      wProfile (Json.str "A") (Json.str "text1")
      (by decide) (by decide) (by decide) (by decide)).1⟩

/-- C4: the merge writer leaves a profile with a present non-null
abstract entirely unchanged, and for every profile, updated or not,
every field other than abstract is emitted unchanged. -/
theorem C4_merge_frame :
    (∀ (idM : List (Json × Json)) (doiM : List (String × Json)) (p : JRec),
       abstractMissing p = false → mergeProfile idM doiM p = .ok p) ∧
    (∀ (idM : List (Json × Json)) (doiM : List (String × Json)) (p q : JRec),
       mergeProfile idM doiM p = .ok q →
       ∀ key, key ≠ "abstract" → dictGet q key = dictGet p key) := by
  constructor
  · intro idM doiM p hm
    exact mergeProfile_not_missing hm
  · intro idM doiM p q h key hkey
    rcases mergeProfile_cases h with hq | ⟨t, hq⟩
    · rw [hq]
    · rw [hq, dictGet_dictSet_ne hkey]

/-- Witness for C4: a complete profile passes through unchanged, and the
updated fixture keeps its publication_id field. -/
theorem C4_witness :
    (abstractMissing wDoneProfile = false ∧
     mergeProfile [(Json.str "A", Json.str "text1")] [] wDoneProfile = .ok wDoneProfile) ∧
    (mergeProfile [(Json.str "A", Json.str "text1")] [] wProfile =
       .ok (dictSet wProfile "abstract" (Json.str "text1")) ∧
     dictGet (dictSet wProfile "abstract" (Json.str "text1")) "publication_id" =
       dictGet wProfile "publication_id") :=
  ⟨⟨by decide, C4_merge_frame.1 _ [] wDoneProfile (by decide)⟩,
   ⟨by decide,
    C4_merge_frame.2 [(Json.str "A", Json.str "text1")] [] wProfile
      (dictSet wProfile "abstract" (Json.str "text1")) (by decide)
      "publication_id" (by decide)⟩⟩

/-- C10: the nested accesses profile.get("publication_id", default).get
and rec.get("_id", default).get raise AttributeError when the field is
present but not an object, in each of the three passes, whereas an
absent field is treated as an absent key. -/
theorem C10_non_object_id_fields_raise :
    collectStep ⟨[], []⟩ wBadProfile = .error .attributeError ∧
    resolveStep (initResolveSt ⟨[], []⟩) wBadAbsRec = .error .attributeError ∧
    mergeProfile [] [] wBadProfile = .error .attributeError ∧
    getOid [] "publication_id" = .ok none ∧
    getOid [("publication_id", Json.obj [])] "publication_id" = .ok none := by
  refine ⟨?_, ?_, ?_, ?_, ?_⟩ <;> decide

theorem setAdd_contains_self {α : Type} [BEq α] [LawfulBEq α] (s : List α) (x : α) :
    (setAdd s x).contains x = true := by
  unfold setAdd
  split
  · assumption
  · simp

theorem contains_erase_ne {α : Type} [BEq α] [LawfulBEq α] {l : List α} {a b : α}
    (h : b ≠ a) : (l.erase a).contains b = l.contains b := by
  simp only [List.elem_eq_mem]
  congr 1
  exact propext (List.mem_erase_of_ne h)

theorem contains_erase_self_of_nodup {α : Type} [BEq α] [LawfulBEq α] {l : List α} {a : α}
    (hnd : l.Nodup) : (l.erase a).contains a = false := by
  simp only [List.elem_eq_mem, decide_eq_false_iff_not]
  exact hnd.not_mem_erase

theorem contains_erase_false {α : Type} [BEq α] [LawfulBEq α] {l : List α} {a b : α}
    (h : l.contains b = false) : (l.erase a).contains b = false := by
  simp only [List.elem_eq_mem, decide_eq_false_iff_not] at *
  exact fun hm => h (List.erase_subset _ _ hm)

theorem isEmpty_false_of_contains {α : Type} [BEq α] [LawfulBEq α] {l : List α} {a : α}
    (h : l.contains a = true) : l.isEmpty = false := by
  simp only [List.elem_eq_mem, decide_eq_true_eq] at h
  cases l
  · cases h
  · rfl

theorem resolveStep_eq (st : ResolveSt) (r : JRec) :
    resolveStep st r = (do
      let recId ← getOid r "_id"
      resolveDoiPart (resolveIdPart st recId (dictGet r "publication_abstract_cleaned"))
        (dictGet r "publication_doi") (dictGet r "publication_abstract_cleaned")) := rfl

theorem resolveIdPart_doi_fields (st : ResolveSt) (recId text : Option Json) :
    (resolveIdPart st recId text).doiToAbstract = st.doiToAbstract ∧
    (resolveIdPart st recId text).remainingDois = st.remainingDois := by
  unfold resolveIdPart
  constructor <;> (repeat' split) <;> rfl

theorem resolveIdPart_nodup {st : ResolveSt} {recId text : Option Json}
    (h : st.remainingIds.Nodup) : (resolveIdPart st recId text).remainingIds.Nodup := by
  unfold resolveIdPart
  (repeat' split) <;> first | exact h | exact h.erase _

theorem resolveIdPart_not_carried {st : ResolveSt} {recId text : Option Json} {k : Json}
    (hnc : ∀ j, recId = some j → (j == k && j.truthy) = false) :
    (resolveIdPart st recId text).remainingIds.contains k = st.remainingIds.contains k ∧
    dictGet (resolveIdPart st recId text).idToAbstract k = dictGet st.idToAbstract k := by
  rcases recId with _ | j
  · exact ⟨rfl, rfl⟩
  · have hj := hnc j rfl
    unfold resolveIdPart
    by_cases hcond : (j.truthy && st.remainingIds.contains j) = true
    · have htr : j.truthy = true := by
        rw [Bool.and_eq_true] at hcond
        exact hcond.1
      rw [htr, Bool.and_true] at hj
      have hne : k ≠ j := fun he => by simp [he] at hj
      simp only [hcond, if_true]
      rcases text with _ | t
      · exact ⟨contains_erase_ne hne, by trivial⟩
      · by_cases htt : t.truthy = true
        · simp only [htt, if_true]
          exact ⟨contains_erase_ne hne, dictGet_dictSet_ne hne⟩
        · rw [Bool.not_eq_true] at htt
          simp only [htt, Bool.false_eq_true, if_false]
          exact ⟨contains_erase_ne hne, by trivial⟩
    · rw [Bool.not_eq_true] at hcond
      simp only [hcond, Bool.false_eq_true, if_false]
      exact ⟨by trivial, by trivial⟩

theorem resolveIdPart_consumed {st : ResolveSt} {text : Option Json} {k : Json}
    (htr : k.truthy = true)
    (hmem : st.remainingIds.contains k = true) (hnd : st.remainingIds.Nodup) :
    (resolveIdPart st (some k) text).remainingIds.contains k = false ∧
    ((∀ t, text = some t → t.truthy = false) →
      dictGet (resolveIdPart st (some k) text).idToAbstract k = dictGet st.idToAbstract k) := by
  unfold resolveIdPart
  simp only [htr, hmem, Bool.and_self, if_true]
  rcases text with _ | t
  · exact ⟨contains_erase_self_of_nodup hnd, fun _ => by trivial⟩
  · by_cases htt : t.truthy = true
    · simp only [htt, if_true]
      constructor
      · exact contains_erase_self_of_nodup hnd
      · intro hnt
        exact absurd (hnt t rfl) (by simp [htt])
    · rw [Bool.not_eq_true] at htt
      simp only [htt, Bool.false_eq_true, if_false]
      exact ⟨contains_erase_self_of_nodup hnd, fun _ => by trivial⟩

theorem resolveIdPart_dead {st : ResolveSt} {recId text : Option Json} {k : Json}
    (hdead : st.remainingIds.contains k = false) :
    (resolveIdPart st recId text).remainingIds.contains k = false ∧
    dictGet (resolveIdPart st recId text).idToAbstract k = dictGet st.idToAbstract k := by
  rcases recId with _ | j
  · exact ⟨hdead, rfl⟩
  · unfold resolveIdPart
    by_cases hcond : (j.truthy && st.remainingIds.contains j) = true
    · have hne : k ≠ j := fun he => by
        rw [← he, hdead, Bool.and_false] at hcond
        cases hcond
      simp only [hcond, if_true]
      rcases text with _ | t
      · exact ⟨contains_erase_false hdead, by trivial⟩
      · by_cases htt : t.truthy = true
        · simp only [htt, if_true]
          exact ⟨contains_erase_false hdead, dictGet_dictSet_ne hne⟩
        · rw [Bool.not_eq_true] at htt
          simp only [htt, Bool.false_eq_true, if_false]
          exact ⟨contains_erase_false hdead, by trivial⟩
    · rw [Bool.not_eq_true] at hcond
      simp only [hcond, Bool.false_eq_true, if_false]
      exact ⟨hdead, by trivial⟩

theorem resolveDoiPart_ids_fields {st st' : ResolveSt} {doi text : Option Json}
    (h : resolveDoiPart st doi text = .ok st') :
    st'.idToAbstract = st.idToAbstract ∧ st'.remainingIds = st.remainingIds := by
  unfold resolveDoiPart at h
  repeat' first
    | split at h
    | simp only [bind, Except.bind, pure, Except.pure] at h
  all_goals first
    | (rw [← Except.ok.inj h]; exact ⟨by trivial, by trivial⟩)
    | (exact Except.noConfusion h)

theorem resolveDoiPart_nodup {st st' : ResolveSt} {doi text : Option Json}
    (h : resolveDoiPart st doi text = .ok st') (hnd : st.remainingDois.Nodup) :
    st'.remainingDois.Nodup := by
  unfold resolveDoiPart at h
  repeat' first
    | split at h
    | simp only [bind, Except.bind, pure, Except.pure] at h
  all_goals first
    | (rw [← Except.ok.inj h]; first | exact hnd | exact hnd.erase _)
    | (exact Except.noConfusion h)

theorem resolveDoiPart_not_carried {st st' : ResolveSt} {doi text : Option Json} {key : String}
    (hnc : ∀ s, doi = some (.str s) →
      ((Json.str s).truthy && (pyLower (pyStrip s) == key)) = false)
    (h : resolveDoiPart st doi text = .ok st') :
    st'.remainingDois.contains key = st.remainingDois.contains key ∧
    dictGet st'.doiToAbstract key = dictGet st.doiToAbstract key := by
  rcases doi with _ | j
  · rw [← Except.ok.inj h]
    exact ⟨rfl, rfl⟩
  · by_cases htr : j.truthy = true
    · match j with
      | .null | .bool _ | .num _ | .arr _ | .obj _ =>
          simp only [resolveDoiPart, htr, if_true, bind, Except.bind, pyStripLower] at h
          exact Except.noConfusion h
      | .str s =>
          have hs := hnc s rfl
          have htr' : (Json.str s).truthy = true := htr
          rw [htr', Bool.true_and] at hs
          have hne : key ≠ pyLower (pyStrip s) := fun he => by simp [he] at hs
          simp only [resolveDoiPart, htr, if_true, bind, Except.bind, pyStripLower,
            pure, Except.pure] at h
          by_cases hcont : st.remainingDois.contains (pyLower (pyStrip s)) = true
          · simp only [hcont, if_true] at h
            rcases text with _ | t
            · rw [← Except.ok.inj h]
              exact ⟨contains_erase_ne hne, rfl⟩
            · by_cases htt : t.truthy = true
              · simp only [htt, if_true] at h
                rw [← Except.ok.inj h]
                exact ⟨contains_erase_ne hne, dictGet_dictSet_ne hne⟩
              · rw [Bool.not_eq_true] at htt
                simp only [htt, Bool.false_eq_true, if_false] at h
                rw [← Except.ok.inj h]
                exact ⟨contains_erase_ne hne, rfl⟩
          · rw [Bool.not_eq_true] at hcont
            simp only [hcont, Bool.false_eq_true, if_false] at h
            rw [← Except.ok.inj h]
            exact ⟨rfl, rfl⟩
    · rw [Bool.not_eq_true] at htr
      simp only [resolveDoiPart, htr, Bool.false_eq_true, if_false, pure, Except.pure] at h
      rw [← Except.ok.inj h]
      exact ⟨rfl, rfl⟩

theorem resolveDoiPart_consumed {st st' : ResolveSt} {text : Option Json} {s : String} {key : String}
    (hkey : pyLower (pyStrip s) = key)
    (htr : (Json.str s).truthy = true)
    (hmem : st.remainingDois.contains key = true) (hnd : st.remainingDois.Nodup)
    (h : resolveDoiPart st (some (.str s)) text = .ok st') :
    st'.remainingDois.contains key = false ∧
    ((∀ t, text = some t → t.truthy = false) →
      dictGet st'.doiToAbstract key = dictGet st.doiToAbstract key) := by
  simp only [resolveDoiPart, htr, if_true, bind, Except.bind, pyStripLower,
    pure, Except.pure, hkey, hmem, if_true] at h
  rcases text with _ | t
  · rw [← Except.ok.inj h]
    exact ⟨contains_erase_self_of_nodup hnd, fun _ => rfl⟩
  · by_cases htt : t.truthy = true
    · simp only [htt, if_true] at h
      rw [← Except.ok.inj h]
      constructor
      · exact contains_erase_self_of_nodup hnd
      · intro hnt
        exact absurd (hnt t rfl) (by simp [htt])
    · rw [Bool.not_eq_true] at htt
      simp only [htt, Bool.false_eq_true, if_false] at h
      rw [← Except.ok.inj h]
      exact ⟨contains_erase_self_of_nodup hnd, fun _ => rfl⟩

theorem resolveDoiPart_dead {st st' : ResolveSt} {doi text : Option Json} {key : String}
    (hdead : st.remainingDois.contains key = false)
    (h : resolveDoiPart st doi text = .ok st') :
    st'.remainingDois.contains key = false ∧
    dictGet st'.doiToAbstract key = dictGet st.doiToAbstract key := by
  rcases doi with _ | j
  · rw [← Except.ok.inj h]
    exact ⟨hdead, rfl⟩
  · by_cases htr : j.truthy = true
    · match j with
      | .null | .bool _ | .num _ | .arr _ | .obj _ =>
          simp only [resolveDoiPart, htr, if_true, bind, Except.bind, pyStripLower] at h
          exact Except.noConfusion h
      | .str s =>
          simp only [resolveDoiPart, htr, if_true, bind, Except.bind, pyStripLower,
            pure, Except.pure] at h
          by_cases hcont : st.remainingDois.contains (pyLower (pyStrip s)) = true
          · have hne : key ≠ pyLower (pyStrip s) := fun he => by
              rw [← he, hdead] at hcont
              cases hcont
            simp only [hcont, if_true] at h
            rcases text with _ | t
            · rw [← Except.ok.inj h]
              exact ⟨contains_erase_false hdead, rfl⟩
            · by_cases htt : t.truthy = true
              · simp only [htt, if_true] at h
                rw [← Except.ok.inj h]
                exact ⟨contains_erase_false hdead, dictGet_dictSet_ne hne⟩
              · rw [Bool.not_eq_true] at htt
                simp only [htt, Bool.false_eq_true, if_false] at h
                rw [← Except.ok.inj h]
                exact ⟨contains_erase_false hdead, rfl⟩
          · rw [Bool.not_eq_true] at hcont
            simp only [hcont, Bool.false_eq_true, if_false] at h
            rw [← Except.ok.inj h]
            exact ⟨hdead, rfl⟩
    · rw [Bool.not_eq_true] at htr
      simp only [resolveDoiPart, htr, Bool.false_eq_true, if_false, pure, Except.pure] at h
      rw [← Except.ok.inj h]
      exact ⟨hdead, rfl⟩

theorem resolveStep_ids_not_carried {st st' : ResolveSt} {r : JRec} {k : Json}
    (hnc : carriesIdB r k = false) (h : resolveStep st r = .ok st') :
    st'.remainingIds.contains k = st.remainingIds.contains k ∧
    dictGet st'.idToAbstract k = dictGet st.idToAbstract k ∧
    (st.remainingIds.Nodup → st'.remainingIds.Nodup) := by
  rw [resolveStep_eq] at h
  match hoid : getOid r "_id" with
  | .error e => rw [hoid] at h; exact Except.noConfusion h
  | .ok recId =>
      rw [hoid] at h
      simp only [bind, Except.bind] at h
      obtain ⟨hia, hri⟩ := resolveDoiPart_ids_fields h
      unfold carriesIdB at hnc
      rw [hoid] at hnc
      have hnc' : ∀ j, recId = some j → (j == k && j.truthy) = false := by
        intro j hj
        subst hj
        exact hnc
      obtain ⟨h1, h2⟩ := @resolveIdPart_not_carried st recId
        (dictGet r "publication_abstract_cleaned") _ hnc'
      refine ⟨?_, ?_, ?_⟩
      · rw [hri, h1]
      · rw [hia, h2]
      · intro hnd
        rw [hri]
        exact resolveIdPart_nodup hnd

theorem resolveStep_ids_consumed {st st' : ResolveSt} {r : JRec} {k : Json}
    (hc : carriesIdB r k = true)
    (hmem : st.remainingIds.contains k = true) (hnd : st.remainingIds.Nodup)
    (h : resolveStep st r = .ok st') :
    st'.remainingIds.contains k = false ∧
    (hasCleanedText r = false → dictGet st'.idToAbstract k = dictGet st.idToAbstract k) := by
  rw [resolveStep_eq] at h
  match hoid : getOid r "_id" with
  | .error e => rw [hoid] at h; exact Except.noConfusion h
  | .ok recId =>
      rw [hoid] at h
      simp only [bind, Except.bind] at h
      obtain ⟨hia, hri⟩ := resolveDoiPart_ids_fields h
      unfold carriesIdB at hc
      rw [hoid] at hc
      match recId with
      | none => exact absurd hc (by simp)
      | some j =>
          rw [Bool.and_eq_true, beq_iff_eq] at hc
          obtain ⟨hjk, htr⟩ := hc
          subst hjk
          obtain ⟨h1, h2⟩ := @resolveIdPart_consumed st
            (dictGet r "publication_abstract_cleaned") _ htr hmem hnd
          constructor
          · rw [hri]; exact h1
          · intro hnt
            rw [hia]
            apply h2
            intro t ht
            unfold hasCleanedText at hnt
            rw [ht] at hnt
            exact hnt

theorem resolveStep_ids_dead {st st' : ResolveSt} {r : JRec} {k : Json}
    (hdead : st.remainingIds.contains k = false)
    (h : resolveStep st r = .ok st') :
    st'.remainingIds.contains k = false ∧
    dictGet st'.idToAbstract k = dictGet st.idToAbstract k := by
  rw [resolveStep_eq] at h
  match hoid : getOid r "_id" with
  | .error e => rw [hoid] at h; exact Except.noConfusion h
  | .ok recId =>
      rw [hoid] at h
      simp only [bind, Except.bind] at h
      obtain ⟨hia, hri⟩ := resolveDoiPart_ids_fields h
      obtain ⟨h1, h2⟩ := @resolveIdPart_dead st recId
        (dictGet r "publication_abstract_cleaned") _ hdead
      exact ⟨by rw [hri]; exact h1, by rw [hia]; exact h2⟩

theorem resolveStep_dois_not_carried {st st' : ResolveSt} {r : JRec} {key : String}
    (hnc : carriesDoiB r key = false) (h : resolveStep st r = .ok st') :
    st'.remainingDois.contains key = st.remainingDois.contains key ∧
    dictGet st'.doiToAbstract key = dictGet st.doiToAbstract key ∧
    (st.remainingDois.Nodup → st'.remainingDois.Nodup) := by
  rw [resolveStep_eq] at h
  match hoid : getOid r "_id" with
  | .error e => rw [hoid] at h; exact Except.noConfusion h
  | .ok recId =>
      rw [hoid] at h
      simp only [bind, Except.bind] at h
      obtain ⟨hda, hrd⟩ := resolveIdPart_doi_fields st recId (dictGet r "publication_abstract_cleaned")
      unfold carriesDoiB at hnc
      have hnc' : ∀ s, dictGet r "publication_doi" = some (.str s) →
          ((Json.str s).truthy && (pyLower (pyStrip s) == key)) = false := by
        intro s hs
        rw [hs] at hnc
        exact hnc
      obtain ⟨h1, h2⟩ := resolveDoiPart_not_carried hnc' h
      refine ⟨?_, ?_, ?_⟩
      · rw [h1, hrd]
      · rw [h2, hda]
      · intro hnd
        refine resolveDoiPart_nodup h ?_
        rw [hrd]
        exact hnd

theorem resolveStep_dois_consumed {st st' : ResolveSt} {r : JRec} {key : String}
    (hc : carriesDoiB r key = true)
    (hmem : st.remainingDois.contains key = true) (hnd : st.remainingDois.Nodup)
    (h : resolveStep st r = .ok st') :
    st'.remainingDois.contains key = false ∧
    (hasCleanedText r = false → dictGet st'.doiToAbstract key = dictGet st.doiToAbstract key) := by
  rw [resolveStep_eq] at h
  match hoid : getOid r "_id" with
  | .error e => rw [hoid] at h; exact Except.noConfusion h
  | .ok recId =>
      rw [hoid] at h
      simp only [bind, Except.bind] at h
      obtain ⟨hda, hrd⟩ := resolveIdPart_doi_fields st recId (dictGet r "publication_abstract_cleaned")
      unfold carriesDoiB at hc
      match hdoi : dictGet r "publication_doi" with
      | none => rw [hdoi] at hc; exact absurd hc (by simp)
      | some (.null) | some (.bool _) | some (.num _) | some (.arr _) | some (.obj _) =>
          rw [hdoi] at hc; exact absurd hc (by simp)
      | some (.str s) =>
          rw [hdoi] at hc h
          rw [Bool.and_eq_true, beq_iff_eq] at hc
          obtain ⟨htr, hkey⟩ := hc
          obtain ⟨h1, h2⟩ := resolveDoiPart_consumed hkey htr
            (by rw [hrd]; exact hmem) (by rw [hrd]; exact hnd) h
          constructor
          · exact h1
          · intro hnt
            rw [← hda]
            apply h2
            intro t ht
            unfold hasCleanedText at hnt
            rw [ht] at hnt
            exact hnt

theorem resolveStep_dois_dead {st st' : ResolveSt} {r : JRec} {key : String}
    (hdead : st.remainingDois.contains key = false)
    (h : resolveStep st r = .ok st') :
    st'.remainingDois.contains key = false ∧
    dictGet st'.doiToAbstract key = dictGet st.doiToAbstract key := by
  rw [resolveStep_eq] at h
  match hoid : getOid r "_id" with
  | .error e => rw [hoid] at h; exact Except.noConfusion h
  | .ok recId =>
      rw [hoid] at h
      simp only [bind, Except.bind] at h
      obtain ⟨hda, hrd⟩ := resolveIdPart_doi_fields st recId (dictGet r "publication_abstract_cleaned")
      obtain ⟨h1, h2⟩ := resolveDoiPart_dead (by rw [hrd]; exact hdead) h
      exact ⟨h1, by rw [h2, hda]⟩

theorem resolveLoop_ids_dead {k : Json} :
    ∀ (elems : List StreamElem) (st st' : ResolveSt),
    st.remainingIds.contains k = false →
    dictGet st.idToAbstract k = none →
    resolveLoop st elems = .ok st' →
    st'.remainingIds.contains k = false ∧ dictGet st'.idToAbstract k = none
  | [], st, st', hdead, hmap, h => by
      rw [← Except.ok.inj h]
      exact ⟨hdead, hmap⟩
  | none :: rest, st, st', hdead, hmap, h =>
      resolveLoop_ids_dead rest st st' hdead hmap h
  | some j :: rest, st, st', hdead, hmap, h => by
      match hj : asRec j with
      | .error e =>
          simp only [resolveLoop, hj, bind, Except.bind] at h
          exact Except.noConfusion h
      | .ok fs =>
          match hstep : resolveStep st fs with
          | .error e =>
              simp only [resolveLoop, hj, hstep, bind, Except.bind] at h
              exact Except.noConfusion h
          | .ok st1 =>
              simp only [resolveLoop, hj, hstep, bind, Except.bind, pure, Except.pure] at h
              obtain ⟨h1, h2⟩ := resolveStep_ids_dead hdead hstep
              rw [hmap] at h2
              split at h
              · rw [← Except.ok.inj h]
                exact ⟨h1, h2⟩
              · exact resolveLoop_ids_dead rest st1 st' h1 h2 h

theorem resolveLoop_dois_dead {key : String} :
    ∀ (elems : List StreamElem) (st st' : ResolveSt),
    st.remainingDois.contains key = false →
    dictGet st.doiToAbstract key = none →
    resolveLoop st elems = .ok st' →
    st'.remainingDois.contains key = false ∧ dictGet st'.doiToAbstract key = none
  | [], st, st', hdead, hmap, h => by
      rw [← Except.ok.inj h]
      exact ⟨hdead, hmap⟩
  | none :: rest, st, st', hdead, hmap, h =>
      resolveLoop_dois_dead rest st st' hdead hmap h
  | some j :: rest, st, st', hdead, hmap, h => by
      match hj : asRec j with
      | .error e =>
          simp only [resolveLoop, hj, bind, Except.bind] at h
          exact Except.noConfusion h
      | .ok fs =>
          match hstep : resolveStep st fs with
          | .error e =>
              simp only [resolveLoop, hj, hstep, bind, Except.bind] at h
              exact Except.noConfusion h
          | .ok st1 =>
              simp only [resolveLoop, hj, hstep, bind, Except.bind, pure, Except.pure] at h
              obtain ⟨h1, h2⟩ := resolveStep_dois_dead hdead hstep
              rw [hmap] at h2
              split at h
              · rw [← Except.ok.inj h]
                exact ⟨h1, h2⟩
              · exact resolveLoop_dois_dead rest st1 st' h1 h2 h

theorem resolveLoop_first_id_match_wins {k : Json} {r0 : StreamElem}
    (pre : List StreamElem) (post : List StreamElem) :
    ∀ (st0 st : ResolveSt),
    st0.remainingIds.Nodup →
    st0.remainingIds.contains k = true →
    dictGet st0.idToAbstract k = none →
    (∀ e ∈ pre, elemCarriesId e k = false) →
    elemCarriesId r0 k = true →
    elemHasCleanedText r0 = false →
    resolveLoop st0 (pre ++ r0 :: post) = .ok st →
    st.remainingIds.contains k = false ∧ dictGet st.idToAbstract k = none := by
  induction pre with
  | nil =>
      intro st0 st hnd hmem hmap _ hcar hnotext h
      rcases r0 with _ | j
      · exact absurd hcar (by simp [elemCarriesId])
      · match j with
        | .null | .bool _ | .num _ | .str _ | .arr _ =>
            exact absurd hcar (by simp [elemCarriesId])
        | .obj fs =>
            match hstep : resolveStep st0 fs with
            | .error e =>
                simp only [List.nil_append, resolveLoop, asRec, bind, Except.bind, hstep] at h
                exact Except.noConfusion h
            | .ok st1 =>
                simp only [List.nil_append, resolveLoop, asRec, bind, Except.bind, hstep,
                  pure, Except.pure] at h
                have hcar' : carriesIdB fs k = true := hcar
                have hnt' : hasCleanedText fs = false := hnotext
                obtain ⟨h1, h2⟩ := resolveStep_ids_consumed hcar' hmem hnd hstep
                have h2' := h2 hnt'
                rw [hmap] at h2'
                split at h
                · rw [← Except.ok.inj h]
                  exact ⟨h1, h2'⟩
                · exact resolveLoop_ids_dead post st1 st h1 h2' h
  | cons e pre' ih =>
      intro st0 st hnd hmem hmap hpre hcar hnotext h
      have hpre0 : elemCarriesId e k = false := hpre e (List.mem_cons_self e pre')
      have hpre' : ∀ x ∈ pre', elemCarriesId x k = false :=
        fun x hx => hpre x (List.mem_cons_of_mem e hx)
      rcases e with _ | j
      · simp only [List.cons_append, resolveLoop] at h
        exact ih st0 st hnd hmem hmap hpre' hcar hnotext h
      · match j with
        | .null | .bool _ | .num _ | .str _ | .arr _ =>
            simp only [List.cons_append, resolveLoop, asRec, bind, Except.bind] at h
            exact Except.noConfusion h
        | .obj fs =>
            have hnc : carriesIdB fs k = false := hpre0
            match hstep : resolveStep st0 fs with
            | .error e =>
                simp only [List.cons_append, resolveLoop, asRec, bind, Except.bind, hstep] at h
                exact Except.noConfusion h
            | .ok st1 =>
                simp only [List.cons_append, resolveLoop, asRec, bind, Except.bind, hstep] at h
                obtain ⟨hc1, hc2, hc3⟩ := resolveStep_ids_not_carried hnc hstep
                have hmem1 : st1.remainingIds.contains k = true := by rw [hc1]; exact hmem
                have hmap1 : dictGet st1.idToAbstract k = none := hc2.trans hmap
                have hnd1 := hc3 hnd
                have hne : st1.remainingIds.isEmpty = false := isEmpty_false_of_contains hmem1
                simp only [hne, Bool.false_and, Bool.false_eq_true, if_false] at h
                exact ih st1 st hnd1 hmem1 hmap1 hpre' hcar hnotext h

theorem resolveLoop_first_doi_match_wins {key : String} {r0 : StreamElem}
    (pre : List StreamElem) (post : List StreamElem) :
    ∀ (st0 st : ResolveSt),
    st0.remainingDois.Nodup →
    st0.remainingDois.contains key = true →
    dictGet st0.doiToAbstract key = none →
    (∀ e ∈ pre, elemCarriesDoi e key = false) →
    elemCarriesDoi r0 key = true →
    elemHasCleanedText r0 = false →
    resolveLoop st0 (pre ++ r0 :: post) = .ok st →
    st.remainingDois.contains key = false ∧ dictGet st.doiToAbstract key = none := by
  induction pre with
  | nil =>
      intro st0 st hnd hmem hmap _ hcar hnotext h
      rcases r0 with _ | j
      · exact absurd hcar (by simp [elemCarriesDoi])
      · match j with
        | .null | .bool _ | .num _ | .str _ | .arr _ =>
            exact absurd hcar (by simp [elemCarriesDoi])
        | .obj fs =>
            match hstep : resolveStep st0 fs with
            | .error e =>
                simp only [List.nil_append, resolveLoop, asRec, bind, Except.bind, hstep] at h
                exact Except.noConfusion h
            | .ok st1 =>
                simp only [List.nil_append, resolveLoop, asRec, bind, Except.bind, hstep,
                  pure, Except.pure] at h
                have hcar' : carriesDoiB fs key = true := hcar
                have hnt' : hasCleanedText fs = false := hnotext
                obtain ⟨h1, h2⟩ := resolveStep_dois_consumed hcar' hmem hnd hstep
                have h2' := h2 hnt'
                rw [hmap] at h2'
                split at h
                · rw [← Except.ok.inj h]
                  exact ⟨h1, h2'⟩
                · exact resolveLoop_dois_dead post st1 st h1 h2' h
  | cons e pre' ih =>
      intro st0 st hnd hmem hmap hpre hcar hnotext h
      have hpre0 : elemCarriesDoi e key = false := hpre e (List.mem_cons_self e pre')
      have hpre' : ∀ x ∈ pre', elemCarriesDoi x key = false :=
        fun x hx => hpre x (List.mem_cons_of_mem e hx)
      rcases e with _ | j
      · simp only [List.cons_append, resolveLoop] at h
        exact ih st0 st hnd hmem hmap hpre' hcar hnotext h
      · match j with
        | .null | .bool _ | .num _ | .str _ | .arr _ =>
            simp only [List.cons_append, resolveLoop, asRec, bind, Except.bind] at h
            exact Except.noConfusion h
        | .obj fs =>
            have hnc : carriesDoiB fs key = false := hpre0
            match hstep : resolveStep st0 fs with
            | .error e =>
                simp only [List.cons_append, resolveLoop, asRec, bind, Except.bind, hstep] at h
                exact Except.noConfusion h
            | .ok st1 =>
                simp only [List.cons_append, resolveLoop, asRec, bind, Except.bind, hstep] at h
                obtain ⟨hc1, hc2, hc3⟩ := resolveStep_dois_not_carried hnc hstep
                have hmem1 : st1.remainingDois.contains key = true := by rw [hc1]; exact hmem
                have hmap1 : dictGet st1.doiToAbstract key = none := hc2.trans hmap
                have hnd1 := hc3 hnd
                have hne : st1.remainingDois.isEmpty = false := isEmpty_false_of_contains hmem1
                simp only [hne, Bool.and_false, Bool.false_eq_true, if_false] at h
                exact ih st1 st hnd1 hmem1 hmap1 hpre' hcar hnotext h

/-- C9: needed-DOI collection and abstract-record DOI extraction both
normalize by strip-then-lowercase, so two DOI strings equal after
normalization map to the same lookup key: the collector records the key
for the first and the resolver matches a record carrying the second
against it. -/
theorem C9_doi_matching_normalized
    (s1 s2 : String) (hnorm : pyLower (pyStrip s1) = pyLower (pyStrip s2)) :
    (∀ (acc : Needed) (p : JRec) (acc' : Needed),
       abstractMissing p = true →
       dictGet p "publication_DOI" = some (.str s1) →
       (Json.str s1).truthy = true →
       collectStep acc p = .ok acc' →
       acc'.dois.contains (pyLower (pyStrip s2)) = true) ∧
    (∀ (st : ResolveSt) (r : JRec) (st' : ResolveSt) (t : Json),
       dictGet r "publication_doi" = some (.str s2) →
       (Json.str s2).truthy = true →
       st.remainingDois.contains (pyLower (pyStrip s1)) = true →
       dictGet r "publication_abstract_cleaned" = some t →
       t.truthy = true →
       resolveStep st r = .ok st' →
       dictGet st'.doiToAbstract (pyLower (pyStrip s1)) = some t) := by
  constructor
  · intro acc p acc' hm hdoi htr h
    match hoid : getOid p "publication_id" with
    | .error e => simp [collectStep, bind, Except.bind, hm, hoid] at h
    | .ok v =>
        simp only [collectStep, hm, if_true, bind, Except.bind, hoid, hdoi, htr,
          pyStripLower, pure, Except.pure] at h
        rw [← Except.ok.inj h, ← hnorm]
        exact setAdd_contains_self _ _
  · intro st r st' t hdoi htr hrem htext httr h
    match hoid : getOid r "_id" with
    | .error e => simp [resolveStep, bind, Except.bind, hoid] at h
    | .ok v =>
        simp only [resolveStep, bind, Except.bind, hoid, hdoi, htr, pyStripLower,
          pure, Except.pure, htext, httr] at h
        rw [← hnorm] at h
        rcases v with _ | j
        · simp only [hrem, if_true] at h
          rw [← Except.ok.inj h]
          exact dictGet_dictSet_self
        · by_cases hc : j.truthy && st.remainingIds.contains j
          · simp only [hc, if_true, hrem] at h
            rw [← Except.ok.inj h]
            exact dictGet_dictSet_self
          · rw [Bool.not_eq_true] at hc
            simp only [hc, Bool.false_eq_true, if_false, hrem, if_true] at h
            rw [← Except.ok.inj h]
            exact dictGet_dictSet_self

/-- Witness for C9: the spec's example pair matches across the collector
and the resolver. -/
theorem C9_witness :
    (collectStep ⟨[], []⟩ wProfile = .ok ⟨[Json.str "A"], ["10.1/abc"]⟩ ∧
     (Needed.dois ⟨[Json.str "A"], ["10.1/abc"]⟩).contains (pyLower (pyStrip "10.1/abc")) = true) ∧
    (resolveStep (initResolveSt ⟨[], ["10.1/abc"]⟩) wAbsRecDoi =
       .ok ⟨[], [("10.1/abc", Json.str "text2")], [], []⟩ ∧
     dictGet (ResolveSt.doiToAbstract ⟨[], [("10.1/abc", Json.str "text2")], [], []⟩)
       (pyLower (pyStrip "10.1/ABC ")) = some (Json.str "text2")) :=
  ⟨⟨by decide,
    (C9_doi_matching_normalized "10.1/ABC " "10.1/abc" (by decide)).1
      ⟨[], []⟩ wProfile ⟨[Json.str "A"], ["10.1/abc"]⟩
      (by decide) (by decide) (by decide) (by decide)⟩,
   ⟨by decide,
    (C9_doi_matching_normalized "10.1/ABC " "10.1/abc" (by decide)).2
      (initResolveSt ⟨[], ["10.1/abc"]⟩) wAbsRecDoi
      ⟨[], [("10.1/abc", Json.str "text2")], [], []⟩ (Json.str "text2")
      (by decide) (by decide) (by decide) (by decide) (by decide) (by decide)⟩⟩

/-- C2: a needed key, ID or normalized DOI, is removed from its
remaining set by the first record that carries it, whether or not that
record has usable abstract text; hence when that first carrier has empty
or absent cleaned text, the key is never added to the resolution
mapping, even if a later record carries it with text. -/
theorem C2_first_match_consumes_key :
    (∀ (pre post : List StreamElem) (r0 : StreamElem) (k : Json) (st0 st : ResolveSt),
       st0.remainingIds.Nodup →
       st0.remainingIds.contains k = true →
       dictGet st0.idToAbstract k = none →
       (∀ e ∈ pre, elemCarriesId e k = false) →
       elemCarriesId r0 k = true →
       elemHasCleanedText r0 = false →
       resolveLoop st0 (pre ++ r0 :: post) = .ok st →
       st.remainingIds.contains k = false ∧ dictGet st.idToAbstract k = none) ∧
    (∀ (pre post : List StreamElem) (r0 : StreamElem) (key : String) (st0 st : ResolveSt),
       st0.remainingDois.Nodup →
       st0.remainingDois.contains key = true →
       dictGet st0.doiToAbstract key = none →
       (∀ e ∈ pre, elemCarriesDoi e key = false) →
       elemCarriesDoi r0 key = true →
       elemHasCleanedText r0 = false →
       resolveLoop st0 (pre ++ r0 :: post) = .ok st →
       st.remainingDois.contains key = false ∧ dictGet st.doiToAbstract key = none) :=
  ⟨fun pre post _r0 _k st0 st hnd hmem hmap hpre hcar hnt h =>
     resolveLoop_first_id_match_wins pre post st0 st hnd hmem hmap hpre hcar hnt h,
   fun pre post _r0 _key st0 st hnd hmem hmap hpre hcar hnt h =>
     resolveLoop_first_doi_match_wins pre post st0 st hnd hmem hmap hpre hcar hnt h⟩

/-- Witness for C2: a first ID carrier without text consumes the key, a
later carrier with text is ignored; likewise for a DOI key. -/
theorem C2_witness :
    (resolveLoop (initResolveSt ⟨[Json.str "A"], ["10.1/never"]⟩) wStreamFirstId =
       .ok ⟨[], [], [], ["10.1/never"]⟩ ∧
     (ResolveSt.remainingIds ⟨[], [], [], ["10.1/never"]⟩).contains (Json.str "A") = false ∧
     dictGet (ResolveSt.idToAbstract ⟨[], [], [], ["10.1/never"]⟩) (Json.str "A") = none) ∧
    (resolveLoop (initResolveSt ⟨[], ["10.1/x", "never"]⟩) wStreamFirstDoi =
       .ok ⟨[], [], [], ["never"]⟩ ∧
     (ResolveSt.remainingDois ⟨[], [], [], ["never"]⟩).contains "10.1/x" = false ∧
     dictGet (ResolveSt.doiToAbstract ⟨[], [], [], ["never"]⟩) "10.1/x" = none) :=
  ⟨⟨by decide,
    C2_first_match_consumes_key.1 [] [wStreamFirstId.get ⟨1, by decide⟩]
      (wStreamFirstId.get ⟨0, by decide⟩) (Json.str "A")
      (initResolveSt ⟨[Json.str "A"], ["10.1/never"]⟩) ⟨[], [], [], ["10.1/never"]⟩
      (by decide) (by decide) (by decide) (by decide) (by decide) (by decide) (by decide)⟩,
   ⟨by decide,
    C2_first_match_consumes_key.2 [] [wStreamFirstDoi.get ⟨1, by decide⟩]
      (wStreamFirstDoi.get ⟨0, by decide⟩) "10.1/x"
      (initResolveSt ⟨[], ["10.1/x", "never"]⟩) ⟨[], [], [], ["never"]⟩
      (by decide) (by decide) (by decide) (by decide) (by decide) (by decide) (by decide)⟩⟩

theorem resolveIdPart_saturated {st : ResolveSt} {recId text : Option Json}
    (h : st.remainingIds = []) : resolveIdPart st recId text = st := by
  rcases recId with _ | j
  · rfl
  · unfold resolveIdPart
    have hc : st.remainingIds.contains j = false := by rw [h]; rfl
    simp only [hc, Bool.and_false, Bool.false_eq_true, if_false]

theorem resolveDoiPart_saturated {st st' : ResolveSt} {doi text : Option Json}
    (h : st.remainingDois = []) (hok : resolveDoiPart st doi text = .ok st') :
    st' = st := by
  rcases doi with _ | j
  · exact (Except.ok.inj hok).symm
  · by_cases htr : j.truthy = true
    · match j with
      | .null | .bool _ | .num _ | .arr _ | .obj _ =>
          simp only [resolveDoiPart, htr, if_true, bind, Except.bind, pyStripLower] at hok
          exact Except.noConfusion hok
      | .str s =>
          have hc : st.remainingDois.contains (pyLower (pyStrip s)) = false := by rw [h]; rfl
          simp only [resolveDoiPart, htr, if_true, bind, Except.bind, pyStripLower,
            pure, Except.pure, hc, Bool.false_eq_true, if_false] at hok
          exact (Except.ok.inj hok).symm
    · rw [Bool.not_eq_true] at htr
      simp only [resolveDoiPart, htr, Bool.false_eq_true, if_false, pure, Except.pure] at hok
      exact (Except.ok.inj hok).symm

theorem resolveStep_saturated {st st' : ResolveSt} {r : JRec}
    (hi : st.remainingIds = []) (hd : st.remainingDois = [])
    (h : resolveStep st r = .ok st') : st' = st := by
  rw [resolveStep_eq] at h
  match hoid : getOid r "_id" with
  | .error e => rw [hoid] at h; exact Except.noConfusion h
  | .ok recId =>
      rw [hoid] at h
      simp only [bind, Except.bind] at h
      rw [resolveIdPart_saturated hi] at h
      exact resolveDoiPart_saturated hd h

theorem resolveLoopFull_saturated :
    ∀ (elems : List StreamElem) (st st' : ResolveSt),
    st.remainingIds = [] → st.remainingDois = [] →
    resolveLoopFull st elems = .ok st' → st' = st
  | [], st, st', _, _, h => (Except.ok.inj h).symm
  | none :: rest, st, st', hi, hd, h => resolveLoopFull_saturated rest st st' hi hd h
  | some j :: rest, st, st', hi, hd, h => by
      match hj : asRec j with
      | .error e =>
          simp only [resolveLoopFull, hj, bind, Except.bind] at h
          exact Except.noConfusion h
      | .ok fs =>
          match hstep : resolveStep st fs with
          | .error e =>
              simp only [resolveLoopFull, hj, hstep, bind, Except.bind] at h
              exact Except.noConfusion h
          | .ok st1 =>
              simp only [resolveLoopFull, hj, hstep, bind, Except.bind] at h
              have h1 : st1 = st := resolveStep_saturated hi hd hstep
              subst h1
              exact resolveLoopFull_saturated rest st1 st' hi hd h

theorem resolveLoop_eq_full :
    ∀ (elems : List StreamElem) (st0 stF : ResolveSt),
    resolveLoopFull st0 elems = .ok stF → resolveLoop st0 elems = .ok stF
  | [], st0, stF, h => h
  | none :: rest, st0, stF, h => resolveLoop_eq_full rest st0 stF h
  | some j :: rest, st0, stF, h => by
      match hj : asRec j with
      | .error e =>
          simp only [resolveLoopFull, hj, bind, Except.bind] at h
          exact Except.noConfusion h
      | .ok fs =>
          match hstep : resolveStep st0 fs with
          | .error e =>
              simp only [resolveLoopFull, hj, hstep, bind, Except.bind] at h
              exact Except.noConfusion h
          | .ok st1 =>
              simp only [resolveLoopFull, hj, hstep, bind, Except.bind] at h
              simp only [resolveLoop, hj, hstep, bind, Except.bind, pure, Except.pure]
              by_cases hsat : (st1.remainingIds.isEmpty && st1.remainingDois.isEmpty) = true
              · rw [if_pos hsat]
                rw [Bool.and_eq_true] at hsat
                have hie : st1.remainingIds = [] := by
                  cases hri : st1.remainingIds
                  · rfl
                  · rw [hri] at hsat
                    exact absurd hsat.1 (by simp [List.isEmpty])
                have hde : st1.remainingDois = [] := by
                  cases hrd : st1.remainingDois
                  · rfl
                  · rw [hrd] at hsat
                    exact absurd hsat.2 (by simp [List.isEmpty])
                rw [resolveLoopFull_saturated rest st1 stF hie hde h]
              · rw [if_neg hsat]
                exact resolveLoop_eq_full rest st1 stF h

/-- C8: the early break of the resolver loop is a pure optimization:
whenever the full scan of the abstracts stream completes, the scan with
the break succeeds with the same id_to_abstract and doi_to_abstract
mappings (indeed the same whole state). -/
theorem C8_early_break_preserves_mappings
    (elems : List StreamElem) (st0 stF : ResolveSt)
    (h : resolveLoopFull st0 elems = .ok stF) :
    ∃ stL, resolveLoop st0 elems = .ok stL ∧
      stL.idToAbstract = stF.idToAbstract ∧ stL.doiToAbstract = stF.doiToAbstract :=
  ⟨stF, resolveLoop_eq_full elems st0 stF h, rfl, rfl⟩

/-- Witness for C8: a stream that saturates the needed set at its first
record gives identical mappings with and without the break. -/
theorem C8_witness :
    resolveLoopFull (initResolveSt ⟨[Json.str "A"], []⟩) wStreamSaturating =
      .ok ⟨[(Json.str "A", Json.str "T")], [], [], []⟩ ∧
    ∃ stL, resolveLoop (initResolveSt ⟨[Json.str "A"], []⟩) wStreamSaturating = .ok stL ∧
      stL.idToAbstract = [(Json.str "A", Json.str "T")] ∧ stL.doiToAbstract = [] :=
  ⟨by decide,
   C8_early_break_preserves_mappings wStreamSaturating
     (initResolveSt ⟨[Json.str "A"], []⟩) ⟨[(Json.str "A", Json.str "T")], [], [], []⟩
     (by decide)⟩

/-- C7: when format detection returns the unrecognized signal for either
input file, main returns early and no output content is produced: a
failure on the profiles file yields the early return immediately, and a
failure on the abstracts file can never reach the writer. -/
theorem C7_detect_failure_no_output (raw abs : String) :
    (detect_json_format raw = none → mainRun raw abs = .ok none) ∧
    (detect_json_format abs = none → ∀ o, mainRun raw abs ≠ .ok (some o)) := by
  constructor
  · intro h
    simp [mainRun, h, pure, Except.pure]
  · intro h o hcontra
    unfold mainRun at hcontra
    match hraw : detect_json_format raw with
    | none =>
        simp only [hraw, pure, Except.pure] at hcontra
        exact Option.noConfusion (Except.ok.inj hcontra)
    | some rawFmt =>
        match hls : loadStream rawFmt raw with
        | .error e =>
            simp only [hraw, hls, bind, Except.bind] at hcontra
            exact Except.noConfusion hcontra
        | .ok stream =>
            match hcs : collectStream stream with
            | .error e =>
                simp only [hraw, hls, hcs, bind, Except.bind] at hcontra
                exact Except.noConfusion hcontra
            | .ok nd =>
                simp only [hraw, hls, hcs, bind, Except.bind, h, pure, Except.pure] at hcontra
                exact Option.noConfusion (Except.ok.inj hcontra)

/-- Witness for C7: two unrecognizable inputs produce the early return
and no output. -/
theorem C7_witness :
    detect_json_format "x" = none ∧ mainRun "x" "y" = .ok none ∧
    mainRun "x" "y" ≠ .ok (some "[]") :=
  ⟨by decide, (C7_detect_failure_no_output "x" "y").1 (by decide),
   (C7_detect_failure_no_output "x" "y").2 (by decide) "[]"⟩

/-! Round-trip of the JSON codec model: the compact rendering of a
well-formed value reads back to the same value. -/

theorem parseStringBody_escList :
    ∀ (s rest : List Char),
    parseStringBody (escList s ++ '"' :: rest) = some (s, rest)
  | [], rest => by
      show parseStringBody ('"' :: rest) = some ([], rest)
      unfold parseStringBody
      simp
  | c :: cs, rest => by
      have ih := parseStringBody_escList cs rest
      by_cases h1 : c = '"'
      · subst h1
        simp [escList, escChar, parseStringBody, escDecode, ih]
      · by_cases h2 : c = '\\'
        · subst h2
          simp [escList, escChar, parseStringBody, escDecode, ih]
        · by_cases h3 : c = '\n'
          · subst h3
            simp [escList, escChar, parseStringBody, escDecode, ih]
          · by_cases h4 : c = '\t'
            · subst h4
              simp [escList, escChar, parseStringBody, escDecode, ih]
            · by_cases h5 : c = '\r'
              · subst h5
                simp [escList, escChar, parseStringBody, escDecode, ih]
              · simp only [escList, escChar, if_neg h1, if_neg h2, if_neg h3, if_neg h4,
                  if_neg h5, List.singleton_append, List.cons_append]
                unfold parseStringBody
                simp only [List.nil_append]
                rw [if_neg h1, if_neg h2, ih]

theorem digitChar_isDigit : ∀ d < 10, (Nat.digitChar d).isDigit = true := by decide

theorem digitChar_val : ∀ d < 10, (Nat.digitChar d).toNat - 48 = d := by decide

theorem renderNat_digits (n : Nat) : ∀ c ∈ renderNat n, c.isDigit = true := by
  intro c hc
  unfold renderNat at hc
  split at hc
  · simp at hc
    subst hc
    decide
  · rw [List.mem_reverse, List.mem_map] at hc
    obtain ⟨d, hd, hdc⟩ := hc
    have hlt : d < 10 := Nat.digits_lt_base (by norm_num) hd
    rw [← hdc]
    exact digitChar_isDigit d hlt

theorem renderNat_ne_nil (n : Nat) : renderNat n ≠ [] := by
  unfold renderNat
  split
  · simp
  · simp only [ne_eq, List.reverse_eq_nil_iff, List.map_eq_nil_iff]
    exact Nat.digits_ne_nil_iff_ne_zero.mpr (by assumption)

theorem digitsToNat_append (xs : List Char) (c : Char) :
    digitsToNat (xs ++ [c]) = 10 * digitsToNat xs + (c.toNat - 48) := by
  unfold digitsToNat
  rw [List.foldl_append]
  rfl

theorem digitsToNat_map_digitChar (ds : List Nat) (h : ∀ d ∈ ds, d < 10) :
    digitsToNat ((ds.map Nat.digitChar).reverse) = Nat.ofDigits 10 ds := by
  induction ds with
  | nil => rfl
  | cons d ds ih =>
      rw [List.map_cons, List.reverse_cons, digitsToNat_append]
      rw [ih (fun x hx => h x (List.mem_cons_of_mem _ hx))]
      rw [digitChar_val d (h d (List.mem_cons_self _ _))]
      rw [Nat.ofDigits_cons]
      omega

theorem digitsToNat_renderNat (n : Nat) : digitsToNat (renderNat n) = n := by
  unfold renderNat
  split
  · rename_i h
    subst h
    rfl
  · rw [digitsToNat_map_digitChar _ (fun d hd => Nat.digits_lt_base (by norm_num) hd)]
    exact Nat.ofDigits_digits 10 n

theorem isDigit_ne {c x : Char} (h : c.isDigit = true) (hx : x.isDigit = false) : c ≠ x :=
  fun he => by
    rw [he, hx] at h
    exact Bool.noConfusion h

theorem not_ws_of_isDigit {c : Char} (h : c.isDigit = true) : c.isWhitespace = false := by
  unfold Char.isWhitespace
  have h1 : c ≠ ' ' := isDigit_ne h (by decide)
  have h2 : c ≠ '\t' := isDigit_ne h (by decide)
  have h3 : c ≠ '\r' := isDigit_ne h (by decide)
  have h4 : c ≠ '\n' := isDigit_ne h (by decide)
  simp [h1, h2, h3, h4]

theorem takeWhile_digits_append (ds rest : List Char)
    (hds : ∀ c ∈ ds, c.isDigit = true) (hrest : headNotDigit rest = true) :
    (ds ++ rest).takeWhile Char.isDigit = ds ∧
    (ds ++ rest).dropWhile Char.isDigit = rest := by
  induction ds with
  | nil =>
      cases rest with
      | nil => exact ⟨rfl, rfl⟩
      | cons c cr =>
          unfold headNotDigit at hrest
          rw [Bool.not_eq_true'] at hrest
          simp [List.takeWhile_cons, List.dropWhile_cons, hrest]
  | cons d ds ih =>
      have hd := hds d (List.mem_cons_self d ds)
      obtain ⟨h1, h2⟩ := ih (fun c hc => hds c (List.mem_cons_of_mem d hc))
      simp [List.takeWhile_cons, List.dropWhile_cons, hd, h1, h2]

theorem isEmpty_renderNat (n : Nat) : (renderNat n).isEmpty = false := by
  cases h : renderNat n
  · exact absurd h (renderNat_ne_nil n)
  · rfl

theorem parseNum_renderInt (i : Int) (rest : List Char) (hrest : headNotDigit rest = true) :
    parseNum (renderInt i ++ rest) = some (i, rest) := by
  by_cases hi : i < 0
  · unfold renderInt
    rw [if_pos hi]
    obtain ⟨ht, hdr⟩ := takeWhile_digits_append (renderNat i.natAbs) rest
      (renderNat_digits _) hrest
    unfold parseNum
    simp only [List.cons_append, ht, hdr, isEmpty_renderNat, Bool.false_eq_true, if_false,
      digitsToNat_renderNat]
    congr 1
    congr 1
    omega
  · unfold renderInt
    rw [if_neg hi]
    obtain ⟨c, cs, hrn⟩ : ∃ c cs, renderNat i.toNat = c :: cs := by
      cases h : renderNat i.toNat
      · exact absurd h (renderNat_ne_nil _)
      · exact ⟨_, _, rfl⟩
    have hcd : c.isDigit = true := renderNat_digits i.toNat c (by rw [hrn]; exact List.mem_cons_self _ _)
    obtain ⟨ht, hdr⟩ := takeWhile_digits_append (renderNat i.toNat) rest
      (renderNat_digits _) hrest
    rw [hrn] at ht hdr
    rw [hrn]
    unfold parseNum
    split
    · rename_i rest' heq
      have : c = '-' := (List.cons.inj heq).1
      exact absurd this (isDigit_ne hcd (by decide))
    · simp only [List.cons_append] at ht hdr ⊢
      rw [ht, hdr]
      have : digitsToNat (c :: cs) = i.toNat := by
        rw [← hrn]
        exact digitsToNat_renderNat _
      simp only [this, isEmpty_renderNat]
      rw [← hrn, isEmpty_renderNat]
      simp only [Bool.false_eq_true, if_false]
      congr 2
      omega

theorem skipWs_cons_not_ws {c : Char} (h : c.isWhitespace = false) (l : List Char) :
    skipWs (c :: l) = c :: l := by
  simp [skipWs, List.dropWhile_cons, h]

theorem skipWs_cons_ws {c : Char} (h : c.isWhitespace = true) (l : List Char) :
    skipWs (c :: l) = skipWs l := by
  simp [skipWs, List.dropWhile_cons, h]

theorem parseVal_ws_cons {c : Char} (h : c.isWhitespace = true) (fuel : Nat) (l : List Char) :
    parseVal fuel (c :: l) = parseVal fuel l := by
  cases fuel with
  | zero => rfl
  | succ f =>
      unfold parseVal
      rw [skipWs_cons_ws h]

theorem parseItems_ws_cons {c : Char} (h : c.isWhitespace = true) (fuel : Nat) (l : List Char) :
    parseItems fuel (c :: l) = parseItems fuel l := by
  cases fuel with
  | zero => rfl
  | succ f =>
      unfold parseItems
      rw [parseVal_ws_cons h]

theorem parseMembers_ws_cons {c : Char} (h : c.isWhitespace = true) (fuel : Nat) (l : List Char) :
    parseMembers fuel (c :: l) = parseMembers fuel l := by
  cases fuel with
  | zero => rfl
  | succ f =>
      unfold parseMembers
      rw [skipWs_cons_ws h]

theorem dumpsL_head_props (j : Json) :
    ∃ c cs, dumpsL j = c :: cs ∧ c.isWhitespace = false ∧ c ≠ ']' := by
  cases j with
  | null => exact ⟨'n', _, rfl, by decide, by decide⟩
  | bool b =>
      cases b
      · exact ⟨'f', _, rfl, by decide, by decide⟩
      · exact ⟨'t', _, rfl, by decide, by decide⟩
  | num i =>
      show ∃ c cs, renderInt i = c :: cs ∧ _
      unfold renderInt
      split
      · exact ⟨'-', _, rfl, by decide, by decide⟩
      · obtain ⟨c, cs, hrn⟩ : ∃ c cs, renderNat i.toNat = c :: cs := by
          cases h : renderNat i.toNat
          · exact absurd h (renderNat_ne_nil _)
          · exact ⟨_, _, rfl⟩
        have hcd : c.isDigit = true :=
          renderNat_digits i.toNat c (by rw [hrn]; exact List.mem_cons_self _ _)
        exact ⟨c, cs, hrn, not_ws_of_isDigit hcd, isDigit_ne hcd (by decide)⟩
  | str s => exact ⟨'"', _, rfl, by decide, by decide⟩
  | arr xs => exact ⟨'[', _, rfl, by decide, by decide⟩
  | obj fs => exact ⟨'{', _, rfl, by decide, by decide⟩

theorem parseVal_succ_quote (f : Nat) (l : List Char) :
    parseVal (f + 1) ('"' :: l) =
      (match parseStringBody l with
       | some (s, r') => some (.str (String.mk s), r')
       | none => none) := rfl

theorem parseVal_succ_lbracket (f : Nat) (l : List Char) :
    parseVal (f + 1) ('[' :: l) =
      (match skipWs l with
       | ']' :: r' => some (.arr [], r')
       | _ =>
          match parseItems f l with
          | some (xs, r') => some (.arr xs, r')
          | none => none) := rfl

theorem parseVal_succ_lbrace (f : Nat) (l : List Char) :
    parseVal (f + 1) ('{' :: l) =
      (match skipWs l with
       | '}' :: r' => some (.obj [], r')
       | _ =>
          match parseMembers f l with
          | some (fs, r') => some (.obj (dedupFields fs), r')
          | none => none) := rfl

theorem strMkData (s : String) : String.mk s.data = s := rfl

theorem dictGet_append {α β : Type} [BEq α] (a b : List (α × β)) (k : α) :
    dictGet (a ++ b) k =
      (match dictGet a k with
       | some v => some v
       | none => dictGet b k) := by
  induction a with
  | nil => rfl
  | cons kv r ih =>
      obtain ⟨k0, v0⟩ := kv
      by_cases h : (k0 == k) = true
      · simp [dictGet, h]
      · simp only [List.cons_append, dictGet, h, Bool.false_eq_true, if_false]
        exact ih

theorem dictSet_append_of_none {α β : Type} [BEq α] {acc : List (α × β)} {k : α} {v : β}
    (h : dictGet acc k = none) : dictSet acc k v = acc ++ [(k, v)] := by
  induction acc with
  | nil => rfl
  | cons kv r ih =>
      obtain ⟨k0, v0⟩ := kv
      by_cases hk : (k0 == k) = true
      · rw [dictGet, if_pos hk] at h
        exact Option.noConfusion h
      · rw [dictGet, if_neg hk] at h
        unfold dictSet
        rw [if_neg hk, ih h]
        rfl

theorem dictGet_none_of_any_false {fs : List (String × Json)} {k : String}
    (h : (fs.any (fun kv => kv.1 == k)) = false) : dictGet fs k = none := by
  induction fs with
  | nil => rfl
  | cons kv r ih =>
      obtain ⟨k0, v0⟩ := kv
      rw [List.any_cons] at h
      have h1 : (k0 == k) = false := by
        cases hb : (k0 == k)
        · rfl
        · rw [hb] at h; exact absurd h (by simp)
      have h2 : r.any (fun kv => kv.1 == k) = false := by
        cases hb : r.any (fun kv => kv.1 == k)
        · rfl
        · rw [hb] at h; exact absurd h (by simp)
      rw [dictGet, if_neg (by rw [h1]; exact Bool.noConfusion)]
      exact ih h2

theorem any_false_mem {α : Type} {p : α → Bool} {l : List α}
    (h : l.any p = false) {x : α} (hx : x ∈ l) : p x = false := by
  cases hp : p x
  · rfl
  · have ht : l.any p = true := List.any_eq_true.mpr ⟨x, hx, hp⟩
    rw [h] at ht
    exact Bool.noConfusion ht

theorem foldl_dictSet_append :
    ∀ (fs acc : List (String × Json)), keysNodup fs = true →
    (∀ k v, (k, v) ∈ fs → dictGet acc k = none) →
    fs.foldl (fun a kv => dictSet a kv.1 kv.2) acc = acc ++ fs := by
  intro fs
  induction fs with
  | nil => intro acc _ _; simp
  | cons kv fs' ih =>
      obtain ⟨k, v⟩ := kv
      intro acc hnd hdisj
      rw [keysNodup, Bool.and_eq_true] at hnd
      obtain ⟨hany, hnd'⟩ := hnd
      rw [Bool.not_eq_true'] at hany
      have hstep : dictSet acc k v = acc ++ [(k, v)] :=
        dictSet_append_of_none (hdisj k v (List.mem_cons_self _ _))
      rw [List.foldl_cons]
      show List.foldl _ (dictSet acc k v) fs' = _
      rw [hstep, ih (acc ++ [(k, v)]) hnd']
      · simp
      · intro k' v' hmem
        rw [dictGet_append]
        rw [hdisj k' v' (List.mem_cons_of_mem _ hmem)]
        have hk'k : (k' == k) = false := any_false_mem hany hmem
        have hkk : (k == k') = false := by
          rw [beq_eq_false_iff_ne] at hk'k ⊢
          exact Ne.symm hk'k
        rw [dictGet, if_neg (by rw [hkk]; exact Bool.noConfusion)]
        rfl

theorem dedupFields_eq_self {fs : List (String × Json)} (h : keysNodup fs = true) :
    dedupFields fs = fs := by
  unfold dedupFields
  rw [foldl_dictSet_append fs [] h (fun _ _ _ => rfl)]
  rfl

theorem skipWs_colon (l : List Char) : skipWs (':' :: l) = ':' :: l :=
  skipWs_cons_not_ws (by decide) l

theorem skipWs_comma (l : List Char) : skipWs (',' :: l) = ',' :: l :=
  skipWs_cons_not_ws (by decide) l

theorem skipWs_rbracket (l : List Char) : skipWs (']' :: l) = ']' :: l :=
  skipWs_cons_not_ws (by decide) l

theorem skipWs_rbrace (l : List Char) : skipWs ('}' :: l) = '}' :: l :=
  skipWs_cons_not_ws (by decide) l

theorem parseVal_space (f : Nat) (l : List Char) : parseVal f (' ' :: l) = parseVal f l :=
  parseVal_ws_cons (by decide) f l

theorem parseItems_space (f : Nat) (l : List Char) : parseItems f (' ' :: l) = parseItems f l :=
  parseItems_ws_cons (by decide) f l

theorem parseMembers_space (f : Nat) (l : List Char) :
    parseMembers f (' ' :: l) = parseMembers f l :=
  parseMembers_ws_cons (by decide) f l

theorem parseMembers_succ_quote (f : Nat) (l : List Char) :
    parseMembers (f + 1) ('"' :: l) =
      (match parseStringBody l with
       | some (k, r1) =>
          (match skipWs r1 with
           | ':' :: r2 =>
              (match parseVal f r2 with
               | some (v, r3) =>
                  (match skipWs r3 with
                   | ',' :: r4 =>
                      (match parseMembers f r4 with
                       | some (fs, r5) => some ((String.mk k, v) :: fs, r5)
                       | none => none)
                   | '}' :: r4 => some ([(String.mk k, v)], r4)
                   | _ => none)
               | none => none)
           | _ => none)
       | none => none) := rfl

mutual
theorem parseVal_dumps : ∀ (j : Json) (fuel : Nat) (rest : List Char),
    Json.wf j = true → fuelVal j ≤ fuel → headNotDigit rest = true →
    parseVal fuel (dumpsL j ++ rest) = some (j, rest)
  | .null, fuel, rest, _, hfuel, _ => by
      obtain ⟨f, rfl⟩ : ∃ f, fuel = f + 1 := ⟨fuel - 1, by unfold fuelVal at hfuel; omega⟩
      rfl
  | .bool true, fuel, rest, _, hfuel, _ => by
      obtain ⟨f, rfl⟩ : ∃ f, fuel = f + 1 := ⟨fuel - 1, by unfold fuelVal at hfuel; omega⟩
      rfl
  | .bool false, fuel, rest, _, hfuel, _ => by
      obtain ⟨f, rfl⟩ : ∃ f, fuel = f + 1 := ⟨fuel - 1, by unfold fuelVal at hfuel; omega⟩
      rfl
  | .str s, fuel, rest, _, hfuel, _ => by
      obtain ⟨f, rfl⟩ : ∃ f, fuel = f + 1 := ⟨fuel - 1, by unfold fuelVal at hfuel; omega⟩
      have hre : dumpsL (.str s) ++ rest = '"' :: (escList s.data ++ '"' :: rest) := by
        show (('"' :: escList s.data) ++ ['"']) ++ rest = _
        rw [List.append_assoc]
        rfl
      rw [hre, parseVal_succ_quote, parseStringBody_escList]
  | .num i, fuel, rest, _, hfuel, hrest => by
      obtain ⟨f, rfl⟩ : ∃ f, fuel = f + 1 := ⟨fuel - 1, by unfold fuelVal at hfuel; omega⟩
      obtain ⟨c, cs, hrn, hcor⟩ :
          ∃ c cs, renderInt i = c :: cs ∧ (c = '-' ∨ c.isDigit = true) := by
        unfold renderInt
        split
        · exact ⟨'-', _, rfl, Or.inl rfl⟩
        · obtain ⟨c, cs, h⟩ : ∃ c cs, renderNat i.toNat = c :: cs := by
            cases hh : renderNat i.toNat
            · exact absurd hh (renderNat_ne_nil _)
            · exact ⟨_, _, rfl⟩
          exact ⟨c, cs, h,
            Or.inr (renderNat_digits _ c (by rw [h]; exact List.mem_cons_self _ _))⟩
      have hprops : c.isWhitespace = false ∧ c ≠ 'n' ∧ c ≠ 't' ∧ c ≠ 'f' ∧
          c ≠ '"' ∧ c ≠ '[' ∧ c ≠ '{' := by
        rcases hcor with rfl | hd
        · exact ⟨by decide, by decide, by decide, by decide, by decide, by decide, by decide⟩
        · exact ⟨not_ws_of_isDigit hd, isDigit_ne hd (by decide), isDigit_ne hd (by decide),
            isDigit_ne hd (by decide), isDigit_ne hd (by decide), isDigit_ne hd (by decide),
            isDigit_ne hd (by decide)⟩
      have hre : dumpsL (.num i) ++ rest = c :: (cs ++ rest) := by
        show renderInt i ++ rest = _
        rw [hrn]
        rfl
      rw [hre]
      unfold parseVal
      rw [skipWs_cons_not_ws hprops.1]
      have hback : c :: (cs ++ rest) = renderInt i ++ rest := by rw [hrn]; rfl
      split
      · rename_i heq
        exact absurd (List.cons.inj heq).1 hprops.2.1
      · rename_i heq
        exact absurd (List.cons.inj heq).1 hprops.2.2.1
      · rename_i heq
        exact absurd (List.cons.inj heq).1 hprops.2.2.2.1
      · rename_i heq
        exact absurd (List.cons.inj heq).1 hprops.2.2.2.2.1
      · rename_i heq
        exact absurd (List.cons.inj heq).1 hprops.2.2.2.2.2.1
      · rename_i heq
        exact absurd (List.cons.inj heq).1 hprops.2.2.2.2.2.2
      · rw [hback, parseNum_renderInt i rest hrest]
  | .arr xs, fuel, rest, hwf, hfuel, _ => by
      obtain ⟨f, rfl⟩ : ∃ f, fuel = f + 1 := ⟨fuel - 1, by unfold fuelVal at hfuel; omega⟩
      have hre : dumpsL (.arr xs) ++ rest = '[' :: (dumpsItems xs ++ ']' :: rest) := by
        show (('[' :: dumpsItems xs) ++ [']']) ++ rest = _
        rw [List.append_assoc]
        rfl
      rw [hre, parseVal_succ_lbracket]
      cases xs with
      | nil => simp only [dumpsItems, List.nil_append, skipWs_rbracket]
      | cons x xs' =>
          obtain ⟨c, cs, hx, hws, hnrb⟩ := dumpsL_head_props x
          obtain ⟨tail, htail⟩ : ∃ tail, dumpsItems (x :: xs') ++ ']' :: rest = c :: tail := by
            cases xs' with
            | nil =>
                refine ⟨cs ++ ']' :: rest, ?_⟩
                show dumpsL x ++ ']' :: rest = _
                rw [hx]
                rfl
            | cons y ys =>
                refine ⟨(cs ++ ',' :: ' ' :: dumpsItems (y :: ys)) ++ ']' :: rest, ?_⟩
                show (dumpsL x ++ ',' :: ' ' :: dumpsItems (y :: ys)) ++ ']' :: rest = _
                rw [hx]
                rfl
          rw [htail, skipWs_cons_not_ws hws]
          have hfxs : fuelItems (x :: xs') ≤ f := by
            unfold fuelVal at hfuel
            omega
          have hwf' : Json.wfList (x :: xs') = true := hwf
          split
          · rename_i heq
            exact absurd (List.cons.inj heq).1 hnrb
          · rw [← htail]
            simp only [parseItems_dumps (x :: xs') f rest hwf' (by simp) hfxs]
  | .obj fs, fuel, rest, hwf, hfuel, _ => by
      obtain ⟨f, rfl⟩ : ∃ f, fuel = f + 1 := ⟨fuel - 1, by unfold fuelVal at hfuel; omega⟩
      have hre : dumpsL (.obj fs) ++ rest = '{' :: (dumpsFields fs ++ '}' :: rest) := by
        show (('{' :: dumpsFields fs) ++ ['}']) ++ rest = _
        rw [List.append_assoc]
        rfl
      rw [hre, parseVal_succ_lbrace]
      have hwf2 : keysNodup fs = true ∧ Json.wfFields fs = true := by
        have hh : Json.wf (.obj fs) = (keysNodup fs && Json.wfFields fs) := rfl
        rw [hh, Bool.and_eq_true] at hwf
        exact hwf
      cases fs with
      | nil => simp only [dumpsFields, List.nil_append, skipWs_rbrace]
      | cons kv fs' =>
          obtain ⟨k, v⟩ := kv
          obtain ⟨tail, htail⟩ :
              ∃ tail, dumpsFields ((k, v) :: fs') ++ '}' :: rest = '"' :: tail := by
            cases fs' with
            | nil =>
                refine ⟨(escList k.data ++ ['"', ':', ' '] ++ dumpsL v) ++ '}' :: rest, ?_⟩
                show ((('"' :: escList k.data) ++ ['"', ':', ' ']) ++ dumpsL v) ++ '}' :: rest = _
                simp [List.append_assoc]
            | cons g gs =>
                refine ⟨((escList k.data ++ ['"', ':', ' '] ++ dumpsL v)
                  ++ ',' :: ' ' :: dumpsFields (g :: gs)) ++ '}' :: rest, ?_⟩
                show (((('"' :: escList k.data) ++ ['"', ':', ' ']) ++ dumpsL v)
                  ++ ',' :: ' ' :: dumpsFields (g :: gs)) ++ '}' :: rest = _
                simp [List.append_assoc]
          rw [htail, skipWs_cons_not_ws (by decide)]
          have hffs : fuelMembers ((k, v) :: fs') ≤ f := by
            unfold fuelVal at hfuel
            omega
          split
          · rename_i heq
            exact absurd (List.cons.inj heq).1 (by decide)
          · rw [← htail]
            simp only [parseMembers_dumps ((k, v) :: fs') f rest hwf2.2 (by simp) hffs,
              dedupFields_eq_self hwf2.1]
theorem parseItems_dumps : ∀ (xs : List Json) (fuel : Nat) (rest : List Char),
    Json.wfList xs = true → xs ≠ [] → fuelItems xs ≤ fuel →
    parseItems fuel (dumpsItems xs ++ ']' :: rest) = some (xs, rest)
  | [], _, _, _, hne, _ => absurd rfl hne
  | [x], fuel, rest, hwf, _, hfuel => by
      obtain ⟨f, rfl⟩ : ∃ f, fuel = f + 1 := ⟨fuel - 1, by unfold fuelItems at hfuel; omega⟩
      have hwfx : Json.wf x = true := by
        have hh : Json.wfList [x] = (Json.wf x && Json.wfList []) := rfl
        rw [hh, Bool.and_eq_true] at hwf
        exact hwf.1
      have hfx : fuelVal x ≤ f := by
        unfold fuelItems at hfuel
        omega
      show parseItems (f + 1) (dumpsL x ++ ']' :: rest) = some ([x], rest)
      unfold parseItems
      simp only [parseVal_dumps x f (']' :: rest) hwfx hfx rfl, skipWs_rbracket]
  | x :: y :: ys, fuel, rest, hwf, _, hfuel => by
      obtain ⟨f, rfl⟩ : ∃ f, fuel = f + 1 := ⟨fuel - 1, by unfold fuelItems at hfuel; omega⟩
      have hwfx : Json.wf x = true ∧ Json.wfList (y :: ys) = true := by
        have hh : Json.wfList (x :: y :: ys) = (Json.wf x && Json.wfList (y :: ys)) := rfl
        rw [hh, Bool.and_eq_true] at hwf
        exact hwf
      have hfx : fuelVal x ≤ f ∧ fuelItems (y :: ys) ≤ f := by
        unfold fuelItems at hfuel
        constructor <;> omega
      have hre : dumpsItems (x :: y :: ys) ++ ']' :: rest =
          dumpsL x ++ (',' :: ' ' :: (dumpsItems (y :: ys) ++ ']' :: rest)) := by
        show (dumpsL x ++ ',' :: ' ' :: dumpsItems (y :: ys)) ++ ']' :: rest = _
        rw [List.append_assoc]
        rfl
      rw [hre]
      unfold parseItems
      simp only [parseVal_dumps x f (',' :: ' ' :: (dumpsItems (y :: ys) ++ ']' :: rest))
          hwfx.1 hfx.1 rfl,
        skipWs_comma, parseItems_space,
        parseItems_dumps (y :: ys) f rest hwfx.2 (by simp) hfx.2]
theorem parseMembers_dumps : ∀ (fs : List (String × Json)) (fuel : Nat) (rest : List Char),
    Json.wfFields fs = true → fs ≠ [] → fuelMembers fs ≤ fuel →
    parseMembers fuel (dumpsFields fs ++ '}' :: rest) = some (fs, rest)
  | [], _, _, _, hne, _ => absurd rfl hne
  | [(k, v)], fuel, rest, hwf, _, hfuel => by
      obtain ⟨f, rfl⟩ : ∃ f, fuel = f + 1 := ⟨fuel - 1, by unfold fuelMembers at hfuel; omega⟩
      have hwfv : Json.wf v = true := by
        have hh : Json.wfFields [(k, v)] = (Json.wf v && Json.wfFields []) := rfl
        rw [hh, Bool.and_eq_true] at hwf
        exact hwf.1
      have hfv : fuelVal v ≤ f := by
        unfold fuelMembers at hfuel
        omega
      have hre : dumpsFields [(k, v)] ++ '}' :: rest =
          '"' :: (escList k.data ++ '"' :: (':' :: (' ' :: (dumpsL v ++ '}' :: rest)))) := by
        show ((('"' :: escList k.data) ++ ['"', ':', ' ']) ++ dumpsL v) ++ '}' :: rest = _
        simp [List.append_assoc]
      rw [hre, parseMembers_succ_quote]
      simp only [parseStringBody_escList, skipWs_colon, parseVal_space,
        parseVal_dumps v f ('}' :: rest) hwfv hfv rfl, skipWs_rbrace, strMkData]
  | (k, v) :: g :: gs, fuel, rest, hwf, _, hfuel => by
      obtain ⟨f, rfl⟩ : ∃ f, fuel = f + 1 := ⟨fuel - 1, by unfold fuelMembers at hfuel; omega⟩
      have hwfv : Json.wf v = true ∧ Json.wfFields (g :: gs) = true := by
        have hh : Json.wfFields ((k, v) :: g :: gs) = (Json.wf v && Json.wfFields (g :: gs)) := rfl
        rw [hh, Bool.and_eq_true] at hwf
        exact hwf
      have hfv : fuelVal v ≤ f ∧ fuelMembers (g :: gs) ≤ f := by
        unfold fuelMembers at hfuel
        constructor <;> omega
      have hre : dumpsFields ((k, v) :: g :: gs) ++ '}' :: rest =
          '"' :: (escList k.data ++ '"' :: (':' :: (' ' ::
            (dumpsL v ++ ',' :: (' ' :: (dumpsFields (g :: gs) ++ '}' :: rest)))))) := by
        show (((('"' :: escList k.data) ++ ['"', ':', ' ']) ++ dumpsL v)
            ++ ',' :: ' ' :: dumpsFields (g :: gs)) ++ '}' :: rest = _
        simp [List.append_assoc]
      rw [hre, parseMembers_succ_quote]
      simp only [parseStringBody_escList, skipWs_colon, parseVal_space,
        parseVal_dumps v f (',' :: (' ' :: (dumpsFields (g :: gs) ++ '}' :: rest)))
          hwfv.1 hfv.1 rfl,
        skipWs_comma, parseMembers_space,
        parseMembers_dumps (g :: gs) f rest hwfv.2 (by simp) hfv.2, strMkData]
end

mutual
theorem fuelVal_le_len : ∀ j : Json, fuelVal j ≤ (dumpsL j).length
  | .null => by simp [fuelVal, dumpsL]
  | .bool true => by simp [fuelVal, dumpsL]
  | .bool false => by simp [fuelVal, dumpsL]
  | .num i => by
      have h1 : (renderInt i).length ≥ 1 := by
        unfold renderInt
        split
        · simp
        · cases hh : renderNat i.toNat
          · exact absurd hh (renderNat_ne_nil _)
          · simp [hh]
      show fuelVal (.num i) ≤ (renderInt i).length
      unfold fuelVal
      omega
  | .str s => by
      show fuelVal (.str s) ≤ (('"' :: escList s.data) ++ ['"']).length
      unfold fuelVal
      simp
  | .arr xs => by
      have h := fuelItems_le_len xs
      show fuelVal (.arr xs) ≤ (('[' :: dumpsItems xs) ++ [']']).length
      unfold fuelVal
      simp only [List.length_append, List.length_cons, List.length_singleton]
      omega
  | .obj fs => by
      have h := fuelMembers_le_len fs
      show fuelVal (.obj fs) ≤ (('{' :: dumpsFields fs) ++ ['}']).length
      unfold fuelVal
      simp only [List.length_append, List.length_cons, List.length_singleton]
      omega
theorem fuelItems_le_len : ∀ xs : List Json, fuelItems xs ≤ (dumpsItems xs).length + 1
  | [] => by simp [fuelItems, dumpsItems]
  | [x] => by
      have h := fuelVal_le_len x
      show fuelItems [x] ≤ (dumpsL x).length + 1
      unfold fuelItems
      omega
  | x :: y :: ys => by
      have h1 := fuelVal_le_len x
      have h2 := fuelItems_le_len (y :: ys)
      show fuelItems (x :: y :: ys) ≤ (dumpsL x ++ ',' :: ' ' :: dumpsItems (y :: ys)).length + 1
      unfold fuelItems
      simp only [List.length_append, List.length_cons]
      omega
theorem fuelMembers_le_len :
    ∀ fs : List (String × Json), fuelMembers fs ≤ (dumpsFields fs).length + 1
  | [] => by simp [fuelMembers, dumpsFields]
  | [(k, v)] => by
      have h := fuelVal_le_len v
      show fuelMembers [(k, v)] ≤
        ((('"' :: escList k.data) ++ ['"', ':', ' ']) ++ dumpsL v).length + 1
      unfold fuelMembers
      simp only [List.length_append, List.length_cons]
      omega
  | (k, v) :: g :: gs => by
      have h1 := fuelVal_le_len v
      have h2 := fuelMembers_le_len (g :: gs)
      show fuelMembers ((k, v) :: g :: gs) ≤
        (((('"' :: escList k.data) ++ ['"', ':', ' ']) ++ dumpsL v)
          ++ ',' :: ' ' :: dumpsFields (g :: gs)).length + 1
      unfold fuelMembers
      simp only [List.length_append, List.length_cons]
      omega
end

theorem parseJsonList_dumpsL {j : Json} (hwf : Json.wf j = true) :
    parseJsonList (dumpsL j) = some j := by
  unfold parseJsonList
  have h := parseVal_dumps j ((dumpsL j).length + 1) [] hwf
    (le_trans (fuelVal_le_len j) (by omega)) rfl
  rw [List.append_nil] at h
  rw [h]
  rfl

theorem skipWs_newline (l : List Char) : skipWs ('\n' :: l) = skipWs l :=
  skipWs_cons_ws (by decide) l

theorem parseItems_newline (f : Nat) (l : List Char) :
    parseItems f ('\n' :: l) = parseItems f l :=
  parseItems_ws_cons (by decide) f l

theorem parseItems_sepNl : ∀ (rs : List JRec) (fuel : Nat) (rest : List Char),
    Json.wfList (rs.map Json.obj) = true → rs ≠ [] →
    fuelItems (rs.map Json.obj) ≤ fuel →
    parseItems fuel
      (sepList [',', '\n'] (rs.map (fun r => dumpsL (.obj r))) ++ ('\n' :: ']' :: rest)) =
      some (rs.map Json.obj, rest)
  | [], _, _, _, hne, _ => absurd rfl hne
  | [r], fuel, rest, hwf, _, hfuel => by
      obtain ⟨f, rfl⟩ : ∃ f, fuel = f + 1 := ⟨fuel - 1, by
        simp only [List.map_cons, List.map_nil] at hfuel
        unfold fuelItems at hfuel
        omega⟩
      have hwfr : Json.wf (.obj r) = true := by
        simp only [List.map_cons, List.map_nil] at hwf
        have hh : Json.wfList [Json.obj r] = (Json.wf (.obj r) && Json.wfList []) := rfl
        rw [hh, Bool.and_eq_true] at hwf
        exact hwf.1
      have hfr : fuelVal (.obj r) ≤ f := by
        simp only [List.map_cons, List.map_nil] at hfuel
        unfold fuelItems at hfuel
        omega
      show parseItems (f + 1) (dumpsL (.obj r) ++ ('\n' :: ']' :: rest)) = _
      unfold parseItems
      simp only [parseVal_dumps (.obj r) f ('\n' :: ']' :: rest) hwfr hfr rfl,
        skipWs_newline, skipWs_rbracket]
      rfl
  | r :: r2 :: rs', fuel, rest, hwf, _, hfuel => by
      obtain ⟨f, rfl⟩ : ∃ f, fuel = f + 1 := ⟨fuel - 1, by
        simp only [List.map_cons] at hfuel
        unfold fuelItems at hfuel
        omega⟩
      have hwf2 : Json.wf (.obj r) = true ∧ Json.wfList ((r2 :: rs').map Json.obj) = true := by
        simp only [List.map_cons] at hwf ⊢
        have hh : Json.wfList (Json.obj r :: Json.obj r2 :: List.map Json.obj rs') =
            (Json.wf (.obj r) && Json.wfList (Json.obj r2 :: List.map Json.obj rs')) := rfl
        rw [hh, Bool.and_eq_true] at hwf
        exact hwf
      have hf2 : fuelVal (.obj r) ≤ f ∧ fuelItems ((r2 :: rs').map Json.obj) ≤ f := by
        simp only [List.map_cons] at hfuel ⊢
        unfold fuelItems at hfuel
        constructor <;> omega
      have hre : sepList [',', '\n'] ((r :: r2 :: rs').map (fun r => dumpsL (.obj r)))
            ++ ('\n' :: ']' :: rest) =
          dumpsL (.obj r) ++ (',' :: '\n' ::
            (sepList [',', '\n'] ((r2 :: rs').map (fun r => dumpsL (.obj r)))
              ++ ('\n' :: ']' :: rest))) := by
        show (dumpsL (.obj r) ++ [',', '\n'] ++ _) ++ _ = _
        simp [List.append_assoc]
      rw [hre]
      unfold parseItems
      simp only [parseVal_dumps (.obj r) f (',' :: '\n' ::
          (sepList [',', '\n'] ((r2 :: rs').map (fun r => dumpsL (.obj r)))
            ++ ('\n' :: ']' :: rest))) hwf2.1 hf2.1 rfl, skipWs_comma,
        parseItems_newline,
        parseItems_sepNl (r2 :: rs') f rest hwf2.2 (by simp) hf2.2]
      simp [List.map_cons]

theorem sepNl_length (rs : List JRec) :
    (sepList [',', '\n'] (rs.map (fun r => dumpsL (.obj r)))).length =
      (dumpsItems (rs.map Json.obj)).length := by
  match rs with
  | [] => rfl
  | [r] => rfl
  | r :: r2 :: rs' =>
      have ih := sepNl_length (r2 :: rs')
      show (dumpsL (.obj r) ++ [',', '\n'] ++
        sepList [',', '\n'] ((r2 :: rs').map (fun r => dumpsL (.obj r)))).length =
        (dumpsL (Json.obj r) ++ ',' :: ' ' :: dumpsItems ((r2 :: rs').map Json.obj)).length
      simp only [List.length_append, List.length_cons, List.length_nil, ih]
      omega

theorem skipWs_lbrace (l : List Char) : skipWs ('{' :: l) = '{' :: l :=
  skipWs_cons_not_ws (by decide) l

theorem parseJsonList_arrayFile (outs : List JRec)
    (hwf : Json.wfList (outs.map Json.obj) = true) :
    parseJsonList (arrayFileContent outs) = some (.arr (outs.map Json.obj)) := by
  cases outs with
  | nil => decide
  | cons r rs =>
      unfold parseJsonList
      obtain ⟨n, hn⟩ : ∃ n, (arrayFileContent (r :: rs)).length + 1 = n + 1 :=
        ⟨(arrayFileContent (r :: rs)).length, rfl⟩
      rw [hn]
      have hshape : arrayFileContent (r :: rs) =
          '[' :: ('\n' :: (sepList [',', '\n'] ((r :: rs).map (fun r => dumpsL (.obj r)))
            ++ ('\n' :: ']' :: ['\n']))) := by
        unfold arrayFileContent
        simp [List.append_assoc]
      have hfuel : fuelItems ((r :: rs).map Json.obj) ≤ n := by
        have h1 := fuelItems_le_len ((r :: rs).map Json.obj)
        have h2 := sepNl_length (r :: rs)
        have h3 : (arrayFileContent (r :: rs)).length = n := by omega
        have h4 : (arrayFileContent (r :: rs)).length =
            (sepList [',', '\n'] (List.map (fun r => dumpsL (Json.obj r)) (r :: rs))).length
              + 5 := by
          unfold arrayFileContent
          simp
        omega
      obtain ⟨tail, htail⟩ :
          ∃ tail, sepList [',', '\n'] ((r :: rs).map (fun r => dumpsL (.obj r)))
            ++ ('\n' :: ']' :: ['\n']) = '{' :: tail := by
        have hr : dumpsL (.obj r) = '{' :: (dumpsFields r ++ ['}']) := rfl
        cases rs with
        | nil =>
            refine ⟨(dumpsFields r ++ ['}']) ++ ('\n' :: ']' :: ['\n']), ?_⟩
            show dumpsL (.obj r) ++ _ = _
            rw [hr]
            rfl
        | cons r2 rs' =>
            refine ⟨((dumpsFields r ++ ['}']) ++ [',', '\n'] ++
              sepList [',', '\n'] ((r2 :: rs').map (fun r => dumpsL (.obj r))))
                ++ ('\n' :: ']' :: ['\n']), ?_⟩
            show (dumpsL (.obj r) ++ [',', '\n'] ++ _) ++ _ = _
            rw [hr]
            simp [List.append_assoc]
      rw [hshape, parseVal_succ_lbracket, skipWs_newline, htail, parseItems_newline]
      have hitems : parseItems n ('{' :: tail) = some ((r :: rs).map Json.obj, ['\n']) := by
        rw [← htail]
        exact parseItems_sepNl (r :: rs) n ['\n'] hwf (by simp) hfuel
      rw [hitems, skipWs_lbrace]
      rfl

theorem any_key_dictSet {acc : List (String × Json)} {k k0 : String} {v : Json}
    (hk : (k == k0) = false)
    (h : (acc.any fun kv => kv.1 == k0) = false) :
    ((dictSet acc k v).any fun kv => kv.1 == k0) = false := by
  induction acc with
  | nil => simpa [dictSet] using hk
  | cons kv2 rest ih =>
      obtain ⟨k2, v2⟩ := kv2
      simp only [List.any_cons, Bool.or_eq_false_iff] at h
      by_cases hk2 : (k2 == k) = true
      · unfold dictSet
        rw [if_pos hk2]
        simp only [List.any_cons, Bool.or_eq_false_iff]
        exact ⟨h.1, h.2⟩
      · unfold dictSet
        rw [if_neg hk2]
        simp only [List.any_cons, Bool.or_eq_false_iff]
        exact ⟨h.1, ih h.2⟩

theorem keysNodup_dictSet {acc : List (String × Json)} {k : String} {v : Json}
    (h : keysNodup acc = true) : keysNodup (dictSet acc k v) = true := by
  induction acc with
  | nil => simp [dictSet, keysNodup]
  | cons kv rest ih =>
      obtain ⟨k0, v0⟩ := kv
      rw [keysNodup, Bool.and_eq_true] at h
      obtain ⟨hany, hnd⟩ := h
      rw [Bool.not_eq_true'] at hany
      by_cases hk : (k0 == k) = true
      · unfold dictSet
        rw [if_pos hk, keysNodup, Bool.and_eq_true]
        exact ⟨by rw [Bool.not_eq_true', hany], hnd⟩
      · unfold dictSet
        rw [if_neg hk, keysNodup, Bool.and_eq_true]
        refine ⟨?_, ih hnd⟩
        rw [Bool.not_eq_true']
        refine any_key_dictSet ?_ hany
        rw [Bool.not_eq_true] at hk
        rw [beq_eq_false_iff_ne] at hk ⊢
        exact Ne.symm hk

theorem wfFields_dictSet {acc : List (String × Json)} {k : String} {v : Json}
    (hacc : Json.wfFields acc = true) (hv : Json.wf v = true) :
    Json.wfFields (dictSet acc k v) = true := by
  induction acc with
  | nil =>
      unfold dictSet
      show (Json.wf v && Json.wfFields []) = true
      simp [hv, Json.wfFields]
  | cons kv rest ih =>
      obtain ⟨k0, v0⟩ := kv
      have hh : Json.wfFields ((k0, v0) :: rest) = (Json.wf v0 && Json.wfFields rest) := rfl
      rw [hh, Bool.and_eq_true] at hacc
      by_cases hk : (k0 == k) = true
      · unfold dictSet
        rw [if_pos hk]
        show (Json.wf v && Json.wfFields rest) = true
        simp [hv, hacc.2]
      · unfold dictSet
        rw [if_neg hk]
        show (Json.wf v0 && Json.wfFields (dictSet rest k v)) = true
        simp [hacc.1, ih hacc.2]

theorem wf_obj_dictSet {p : JRec} {t : Json}
    (hp : Json.wf (.obj p) = true) (ht : Json.wf t = true) :
    Json.wf (.obj (dictSet p "abstract" t)) = true := by
  have hh : Json.wf (.obj p) = (keysNodup p && Json.wfFields p) := rfl
  rw [hh, Bool.and_eq_true] at hp
  have hh2 : Json.wf (.obj (dictSet p "abstract" t)) =
      (keysNodup (dictSet p "abstract" t) && Json.wfFields (dictSet p "abstract" t)) := rfl
  rw [hh2, Bool.and_eq_true]
  exact ⟨keysNodup_dictSet hp.1, wfFields_dictSet hp.2 ht⟩

theorem dictGet_mem_values {α β : Type} [BEq α] {m : List (α × β)} {k : α} {t : β}
    (h : dictGet m k = some t) : t ∈ m.map Prod.snd := by
  induction m with
  | nil => exact Option.noConfusion h
  | cons kv rest ih =>
      obtain ⟨k0, v0⟩ := kv
      by_cases hk : (k0 == k) = true
      · rw [dictGet, if_pos hk] at h
        rw [List.map_cons]
        exact (Option.some.inj h) ▸ List.mem_cons_self _ _
      · rw [dictGet, if_neg hk] at h
        rw [List.map_cons]
        exact List.mem_cons_of_mem _ (ih h)

/-- The merge of one profile either returns it unchanged or assigns a
text drawn from one of the two mappings to its abstract field. -/
theorem mergeProfile_cases_mem {idM : List (Json × Json)} {doiM : List (String × Json)}
    {p q : JRec} (h : mergeProfile idM doiM p = .ok q) :
    q = p ∨ ∃ t, (t ∈ idM.map Prod.snd ∨ t ∈ doiM.map Prod.snd) ∧
      q = dictSet p "abstract" t := by
  by_cases hm : abstractMissing p = true
  · match hoid : getOid p "publication_id" with
    | .error e => simp [mergeProfile, hm, hoid, bind, Except.bind] at h
    | .ok pubId =>
        simp only [mergeProfile, hm, if_true, bind, Except.bind, hoid] at h
        match hhit : (match pubId with
            | some j => if j.truthy = true then dictGet idM j else none
            | none => none) with
        | some t =>
            simp only [hhit, pure, Except.pure, Except.ok.injEq] at h
            refine Or.inr ⟨t, Or.inl ?_, h.symm⟩
            match pubId, hhit with
            | some j, hhit =>
                have hhit' : (if j.truthy = true then dictGet idM j else none) = some t := hhit
                by_cases htr : j.truthy = true
                · rw [if_pos htr] at hhit'
                  exact dictGet_mem_values hhit'
                · rw [if_neg htr] at hhit'
                  exact Option.noConfusion hhit'
        | none =>
            simp only [hhit] at h
            match hdoi : dictGet p "publication_DOI" with
            | none =>
                simp only [hdoi, pure, Except.pure, Except.ok.injEq] at h
                exact Or.inl h.symm
            | some j =>
                simp only [hdoi] at h
                by_cases htr : j.truthy = true
                · simp only [htr, if_true] at h
                  match hsl : pyStripLower j with
                  | .error e =>
                      simp only [hsl] at h
                      exact Except.noConfusion h
                  | .ok key =>
                      simp only [hsl, bind, Except.bind] at h
                      match hget : dictGet doiM key with
                      | some t =>
                          simp only [hget, pure, Except.pure, Except.ok.injEq] at h
                          exact Or.inr ⟨t, Or.inr (dictGet_mem_values hget), h.symm⟩
                      | none =>
                          simp only [hget, pure, Except.pure, Except.ok.injEq] at h
                          exact Or.inl h.symm
                · simp only [htr, Bool.false_eq_true, if_false, pure, Except.pure,
                    Except.ok.injEq] at h
                  exact Or.inl h.symm
  · rw [Bool.not_eq_true] at hm
    rw [mergeProfile_not_missing hm] at h
    exact Or.inl (Except.ok.inj h).symm

theorem wfList_mem {vs : List Json} {t : Json}
    (hvs : Json.wfList vs = true) (hmem : t ∈ vs) : Json.wf t = true := by
  induction vs with
  | nil => cases hmem
  | cons v rest ih =>
      have hh : Json.wfList (v :: rest) = (Json.wf v && Json.wfList rest) := rfl
      rw [hh, Bool.and_eq_true] at hvs
      rcases List.mem_cons.mp hmem with rfl | hmem'
      · exact hvs.1
      · exact ih hvs.2 hmem'

theorem mergeProfile_wf {idM : List (Json × Json)} {doiM : List (String × Json)}
    {p q : JRec}
    (hwp : Json.wf (.obj p) = true)
    (hidM : Json.wfList (idM.map Prod.snd) = true)
    (hdoiM : Json.wfList (doiM.map Prod.snd) = true)
    (h : mergeProfile idM doiM p = .ok q) : Json.wf (.obj q) = true := by
  rcases mergeProfile_cases_mem h with hq | ⟨t, hmem, hq⟩
  · rw [hq]
    exact hwp
  · subst hq
    have hwt : Json.wf t = true := by
      rcases hmem with hmem | hmem
      · exact wfList_mem hidM hmem
      · exact wfList_mem hdoiM hmem
    exact wf_obj_dictSet hwp hwt

theorem dedupFields_nodup (fs : List (String × Json)) :
    keysNodup (dedupFields fs) = true := by
  unfold dedupFields
  suffices hgen : ∀ (gs acc : List (String × Json)), keysNodup acc = true →
      keysNodup (gs.foldl (fun a kv => dictSet a kv.1 kv.2) acc) = true from
    hgen fs [] rfl
  intro gs
  induction gs with
  | nil => intro acc h; exact h
  | cons kv rest ih =>
      obtain ⟨k, v⟩ := kv
      intro acc h
      rw [List.foldl_cons]
      exact ih (dictSet acc k v) (keysNodup_dictSet h)

theorem dedupFields_wfFields {fs : List (String × Json)}
    (h : Json.wfFields fs = true) : Json.wfFields (dedupFields fs) = true := by
  unfold dedupFields
  suffices hgen : ∀ (gs acc : List (String × Json)), Json.wfFields gs = true →
      Json.wfFields acc = true →
      Json.wfFields (gs.foldl (fun a kv => dictSet a kv.1 kv.2) acc) = true from
    hgen fs [] h rfl
  intro gs
  induction gs with
  | nil => intro acc _ hacc; exact hacc
  | cons kv rest ih =>
      obtain ⟨k, v⟩ := kv
      intro acc hgs hacc
      have hh : Json.wfFields ((k, v) :: rest) = (Json.wf v && Json.wfFields rest) := rfl
      rw [hh, Bool.and_eq_true] at hgs
      rw [List.foldl_cons]
      exact ih (dictSet acc k v) hgs.2 (wfFields_dictSet hacc hgs.1)

mutual
theorem parseVal_wf : ∀ (fuel : Nat) {l : List Char} {j : Json} {r : List Char},
    parseVal fuel l = some (j, r) → Json.wf j = true
  | 0, l, j, r, h => Option.noConfusion h
  | fuel + 1, l, j, r, h => by
      unfold parseVal at h
      split at h
      · obtain ⟨h1, _⟩ := Prod.mk.inj (Option.some.inj h)
        rw [← h1]
        rfl
      · obtain ⟨h1, _⟩ := Prod.mk.inj (Option.some.inj h)
        rw [← h1]
        rfl
      · obtain ⟨h1, _⟩ := Prod.mk.inj (Option.some.inj h)
        rw [← h1]
        rfl
      · split at h
        · obtain ⟨h1, _⟩ := Prod.mk.inj (Option.some.inj h)
          rw [← h1]
          rfl
        · exact Option.noConfusion h
      · split at h
        · obtain ⟨h1, _⟩ := Prod.mk.inj (Option.some.inj h)
          rw [← h1]
          rfl
        · split at h
          · rename_i xs r' heq
            obtain ⟨h1, _⟩ := Prod.mk.inj (Option.some.inj h)
            rw [← h1]
            show Json.wfList xs = true
            exact parseItems_wf fuel heq
          · exact Option.noConfusion h
      · split at h
        · obtain ⟨h1, _⟩ := Prod.mk.inj (Option.some.inj h)
          rw [← h1]
          rfl
        · split at h
          · rename_i fs r' heq
            obtain ⟨h1, _⟩ := Prod.mk.inj (Option.some.inj h)
            rw [← h1]
            show (keysNodup (dedupFields fs) && Json.wfFields (dedupFields fs)) = true
            rw [Bool.and_eq_true]
            exact ⟨dedupFields_nodup fs, dedupFields_wfFields (parseMembers_wf fuel heq)⟩
          · exact Option.noConfusion h
      · split at h
        · obtain ⟨h1, _⟩ := Prod.mk.inj (Option.some.inj h)
          rw [← h1]
          rfl
        · exact Option.noConfusion h
theorem parseItems_wf : ∀ (fuel : Nat) {l : List Char} {xs : List Json} {r : List Char},
    parseItems fuel l = some (xs, r) → Json.wfList xs = true
  | 0, l, xs, r, h => Option.noConfusion h
  | fuel + 1, l, xs, r, h => by
      unfold parseItems at h
      split at h
      · rename_i x r1 heqv
        split at h
        · rename_i r' heqs
          split at h
          · rename_i xs' r'' heqi
            obtain ⟨h1, _⟩ := Prod.mk.inj (Option.some.inj h)
            rw [← h1]
            show (Json.wf x && Json.wfList xs') = true
            rw [Bool.and_eq_true]
            exact ⟨parseVal_wf fuel heqv, parseItems_wf fuel heqi⟩
          · exact Option.noConfusion h
        · rename_i r' heqs
          obtain ⟨h1, _⟩ := Prod.mk.inj (Option.some.inj h)
          rw [← h1]
          show (Json.wf x && Json.wfList []) = true
          rw [Bool.and_eq_true]
          exact ⟨parseVal_wf fuel heqv, rfl⟩
        · exact Option.noConfusion h
      · exact Option.noConfusion h
theorem parseMembers_wf : ∀ (fuel : Nat) {l : List Char} {fs : List (String × Json)}
    {r : List Char},
    parseMembers fuel l = some (fs, r) → Json.wfFields fs = true
  | 0, l, fs, r, h => Option.noConfusion h
  | fuel + 1, l, fs, r, h => by
      unfold parseMembers at h
      split at h
      · split at h
        · split at h
          · split at h
            · rename_i v r3 heqv
              split at h
              · split at h
                · rename_i fs' r5 heqm
                  obtain ⟨h1, _⟩ := Prod.mk.inj (Option.some.inj h)
                  rw [← h1]
                  show (Json.wf v && Json.wfFields fs') = true
                  rw [Bool.and_eq_true]
                  exact ⟨parseVal_wf fuel heqv, parseMembers_wf fuel heqm⟩
                · exact Option.noConfusion h
              · obtain ⟨h1, _⟩ := Prod.mk.inj (Option.some.inj h)
                rw [← h1]
                show (Json.wf v && Json.wfFields []) = true
                rw [Bool.and_eq_true]
                exact ⟨parseVal_wf fuel heqv, rfl⟩
              · exact Option.noConfusion h
            · exact Option.noConfusion h
          · exact Option.noConfusion h
        · exact Option.noConfusion h
      · exact Option.noConfusion h

end

theorem parseJsonList_wf {l : List Char} {j : Json} (h : parseJsonList l = some j) :
    Json.wf j = true := by
  unfold parseJsonList at h
  match heq : parseVal (l.length + 1) l with
  | none => rw [heq] at h; exact Option.noConfusion h
  | some (j', r') =>
      rw [heq] at h
      have h' : (if (skipWs r').isEmpty = true then some j' else none) = some j := h
      split at h'
      · exact (Option.some.inj h') ▸ parseVal_wf _ heq
      · exact Option.noConfusion h'

theorem escList_no_nl : ∀ s : List Char, '\n' ∉ escList s
  | [] => by simp [escList]
  | c :: cs => by
      intro hmem
      unfold escList at hmem
      rw [List.mem_append] at hmem
      rcases hmem with hmem | hmem
      · unfold escChar at hmem
        split at hmem
        · simp at hmem
        · split at hmem
          · simp at hmem
          · split at hmem
            · simp at hmem
            · split at hmem
              · simp at hmem
              · split at hmem
                · simp at hmem
                · rename_i h1 h2 h3 h4 h5
                  rw [List.mem_singleton] at hmem
                  exact h3 hmem.symm
      · exact escList_no_nl cs hmem

theorem renderInt_no_nl (i : Int) : '\n' ∉ renderInt i := by
  intro hmem
  unfold renderInt at hmem
  have hdig : ∀ n : Nat, '\n' ∈ renderNat n → False := fun n hn =>
    absurd rfl (isDigit_ne (renderNat_digits n _ hn) (by decide))
  split at hmem
  · rw [List.mem_cons] at hmem
    rcases hmem with hmem | hmem
    · exact absurd hmem.symm (by decide)
    · exact hdig _ hmem
  · exact hdig _ hmem

mutual
theorem dumpsL_no_nl : ∀ j : Json, '\n' ∉ dumpsL j
  | .null => by decide
  | .bool true => by decide
  | .bool false => by decide
  | .num i => renderInt_no_nl i
  | .str s => by
      intro hmem
      have h1 := escList_no_nl s.data
      have hm : '\n' ∈ ('"' :: escList s.data) ++ ['"'] := hmem
      simp [List.mem_append, List.mem_cons, h1] at hm
  | .arr xs => by
      intro hmem
      have h1 := dumpsItems_no_nl xs
      have hm : '\n' ∈ ('[' :: dumpsItems xs) ++ [']'] := hmem
      simp [List.mem_append, List.mem_cons, h1] at hm
  | .obj fs => by
      intro hmem
      have h1 := dumpsFields_no_nl fs
      have hm : '\n' ∈ ('{' :: dumpsFields fs) ++ ['}'] := hmem
      simp [List.mem_append, List.mem_cons, h1] at hm
theorem dumpsItems_no_nl : ∀ xs : List Json, '\n' ∉ dumpsItems xs
  | [] => by simp [dumpsItems]
  | [x] => dumpsL_no_nl x
  | x :: y :: ys => by
      intro hmem
      have h1 := dumpsL_no_nl x
      have h2 := dumpsItems_no_nl (y :: ys)
      have hm : '\n' ∈ dumpsL x ++ (',' :: ' ' :: dumpsItems (y :: ys)) := hmem
      simp [List.mem_append, List.mem_cons, h1, h2] at hm
theorem dumpsFields_no_nl : ∀ fs : List (String × Json), '\n' ∉ dumpsFields fs
  | [] => by simp [dumpsFields]
  | [(k, v)] => by
      intro hmem
      have h1 := escList_no_nl k.data
      have h2 := dumpsL_no_nl v
      have hm : '\n' ∈ (('"' :: escList k.data) ++ ['"', ':', ' ']) ++ dumpsL v := hmem
      simp [List.mem_append, List.mem_cons, h1, h2] at hm
  | (k, v) :: g :: gs => by
      intro hmem
      have h1 := escList_no_nl k.data
      have h2 := dumpsL_no_nl v
      have h3 := dumpsFields_no_nl (g :: gs)
      have hm : '\n' ∈ ((('"' :: escList k.data) ++ ['"', ':', ' ']) ++ dumpsL v)
          ++ (',' :: ' ' :: dumpsFields (g :: gs)) := hmem
      simp [List.mem_append, List.mem_cons, h1, h2, h3] at hm
end

theorem splitNl_append {A : List Char} (hA : '\n' ∉ A) (B : List Char) :
    splitNl (A ++ '\n' :: B) = A :: splitNl B := by
  induction A with
  | nil => simp [splitNl]
  | cons c cs ih =>
      have hc : ¬(c = '\n') := fun he => hA (he ▸ List.mem_cons_self _ _)
      have hcs : '\n' ∉ cs := fun hm => hA (List.mem_cons_of_mem _ hm)
      show splitNl (c :: (cs ++ '\n' :: B)) = (c :: cs) :: splitNl B
      have hcl : splitNl (c :: (cs ++ '\n' :: B)) =
          if c = '\n' then [] :: splitNl (cs ++ '\n' :: B)
          else
            match splitNl (cs ++ '\n' :: B) with
            | l :: ls => (c :: l) :: ls
            | [] => [[c]] := rfl
      rw [hcl, if_neg hc, ih hcs]

theorem splitNl_ndFile : ∀ outs : List JRec,
    splitNl (ndFileContent outs) = outs.map (fun r => dumpsL (.obj r)) ++ [[]]
  | [] => rfl
  | r :: rs => by
      show splitNl (dumpsL (.obj r) ++ '\n' :: ndFileContent rs) = _
      rw [splitNl_append (dumpsL_no_nl (.obj r)), splitNl_ndFile rs]
      rfl

theorem asRec_obj {j : Json} {fs : JRec} (h : asRec j = .ok fs) : j = .obj fs := by
  cases j <;> first
    | exact Except.noConfusion h
    | exact congrArg Json.obj (Except.ok.inj h)

theorem mergeItems_spec {idM : List (Json × Json)} {doiM : List (String × Json)} :
    ∀ (items : List Json) (out : List JRec),
    mergeItems idM doiM items = .ok out →
    out.length = items.length ∧
    ∀ i (hi : i < items.length) (ho : i < out.length),
      ∃ fs, items.get ⟨i, hi⟩ = Json.obj fs ∧
        mergeProfile idM doiM fs = .ok (out.get ⟨i, ho⟩)
  | [], out, h => by
      rw [← Except.ok.inj h]
      exact ⟨rfl, fun i hi ho => absurd hi (by simp)⟩
  | j :: rest, out, h => by
      match hj : asRec j with
      | .error e =>
          simp only [mergeItems, hj, bind, Except.bind] at h
          exact Except.noConfusion h
      | .ok fs =>
          match hm : mergeProfile idM doiM fs with
          | .error e =>
              simp only [mergeItems, hj, hm, bind, Except.bind] at h
              exact Except.noConfusion h
          | .ok q =>
              match hrest : mergeItems idM doiM rest with
              | .error e =>
                  simp only [mergeItems, hj, hm, hrest, bind, Except.bind] at h
                  exact Except.noConfusion h
              | .ok qs =>
                  simp only [mergeItems, hj, hm, hrest, bind, Except.bind,
                    pure, Except.pure] at h
                  rw [← Except.ok.inj h]
                  obtain ⟨ihlen, ihspec⟩ := mergeItems_spec rest qs hrest
                  refine ⟨by simp [ihlen], ?_⟩
                  intro i hi ho
                  cases i with
                  | zero => exact ⟨fs, by rw [asRec_obj hj]; rfl, hm⟩
                  | succ n =>
                      have hi' : n < rest.length := by
                        simpa using hi
                      have ho' : n < qs.length := by
                        rw [ihlen]
                        exact hi'
                      obtain ⟨fs', h1, h2⟩ := ihspec n hi' ho'
                      exact ⟨fs', h1, h2⟩

theorem mergeItems_wf {idM : List (Json × Json)} {doiM : List (String × Json)}
    (hidM : Json.wfList (idM.map Prod.snd) = true)
    (hdoiM : Json.wfList (doiM.map Prod.snd) = true) :
    ∀ (items : List Json) (out : List JRec),
    Json.wfList items = true →
    mergeItems idM doiM items = .ok out →
    Json.wfList (out.map Json.obj) = true
  | [], out, _, h => by
      rw [← Except.ok.inj h]
      rfl
  | j :: rest, out, hwf, h => by
      match hj : asRec j with
      | .error e =>
          simp only [mergeItems, hj, bind, Except.bind] at h
          exact Except.noConfusion h
      | .ok fs =>
          match hm : mergeProfile idM doiM fs with
          | .error e =>
              simp only [mergeItems, hj, hm, bind, Except.bind] at h
              exact Except.noConfusion h
          | .ok q =>
              match hrest : mergeItems idM doiM rest with
              | .error e =>
                  simp only [mergeItems, hj, hm, hrest, bind, Except.bind] at h
                  exact Except.noConfusion h
              | .ok qs =>
                  simp only [mergeItems, hj, hm, hrest, bind, Except.bind,
                    pure, Except.pure] at h
                  rw [← Except.ok.inj h]
                  have hh : Json.wfList (j :: rest) = (Json.wf j && Json.wfList rest) := rfl
                  rw [hh, Bool.and_eq_true] at hwf
                  have hwfq : Json.wf (.obj q) = true := by
                    refine mergeProfile_wf ?_ hidM hdoiM hm
                    rw [← asRec_obj hj]
                    exact hwf.1
                  have hrec := mergeItems_wf hidM hdoiM rest qs hwf.2 hrest
                  show (Json.wf (.obj q) && Json.wfList (qs.map Json.obj)) = true
                  simp [hwfq, hrec]

theorem mergeLines_eq_filterMap {idM : List (Json × Json)} {doiM : List (String × Json)} :
    ∀ lines : List StreamElem,
    mergeLines idM doiM lines = mergeItems idM doiM (lines.filterMap id)
  | [] => rfl
  | none :: rest => by
      show mergeLines idM doiM rest = _
      rw [mergeLines_eq_filterMap rest]
      rfl
  | some j :: rest => by
      show (do
        let q ← mergeProfile idM doiM (← asRec j)
        let qs ← mergeLines idM doiM rest
        pure (q :: qs)) = mergeItems idM doiM ((some j :: rest).filterMap id)
      have hfm : (some j :: rest).filterMap id = j :: rest.filterMap id := by
        simp [List.filterMap_cons]
      rw [hfm]
      show _ = (do
        let q ← mergeProfile idM doiM (← asRec j)
        let qs ← mergeItems idM doiM (rest.filterMap id)
        pure (q :: qs))
      rw [mergeLines_eq_filterMap rest]

theorem parseLines_wfList : ∀ ls : List (List Char),
    Json.wfList ((ls.map (fun l => parseJsonList l)).filterMap id) = true
  | [] => rfl
  | l :: ls => by
      have ih := parseLines_wfList ls
      show Json.wfList (List.filterMap id
        (parseJsonList l :: List.map (fun l => parseJsonList l) ls)) = true
      rw [List.filterMap_cons]
      cases hp : parseJsonList l with
      | none => exact ih
      | some j =>
          have hwf := parseJsonList_wf hp
          show (Json.wf j &&
            Json.wfList (List.filterMap id (List.map (fun l => parseJsonList l) ls))) = true
          rw [hwf, ih]
          rfl

/-- C3: shape of the writer output.  Array mode: whenever the input
parses as an array and the merge succeeds, the output record sequence
has the input's length and order, every output record is its input
profile unchanged or with only the abstract field set, and the emitted
file text parses back as exactly that JSON array.  Line mode: the lines
that failed to decode are dropped (the merge of the line stream is the
merge of its decoded records), the emitted text is one compact
newline-terminated rendering per output record in order, and every such
line parses back to its record. -/
theorem C3_writer_output_shape
    (idM : List (Json × Json)) (doiM : List (String × Json)) (input : String)
    (hidM : Json.wfList (idM.map Prod.snd) = true)
    (hdoiM : Json.wfList (doiM.map Prod.snd) = true) :
    (∀ items out, parseJsonStr input = some (.arr items) →
      mergeItems idM doiM items = .ok out →
      out.length = items.length ∧
      (∀ i (hi : i < items.length) (ho : i < out.length),
        ∃ fs, items.get ⟨i, hi⟩ = Json.obj fs ∧
          (out.get ⟨i, ho⟩ = fs ∨ ∃ t, out.get ⟨i, ho⟩ = dictSet fs "abstract" t)) ∧
      parseJsonList (arrayFileContent out) = some (.arr (out.map Json.obj))) ∧
    (∀ out, mergeLines idM doiM (loadLines input) = .ok out →
      mergeItems idM doiM ((loadLines input).filterMap id) = .ok out ∧
      splitNl (ndFileContent out) = out.map (fun r => dumpsL (.obj r)) ++ [[]] ∧
      ∀ i (ho : i < out.length),
        parseJsonList (dumpsL (.obj (out.get ⟨i, ho⟩))) = some (.obj (out.get ⟨i, ho⟩))) := by
  constructor
  · intro items out hparse hmerge
    obtain ⟨hlen, hspec⟩ := mergeItems_spec items out hmerge
    have hwfarr : Json.wf (.arr items) = true := parseJsonList_wf hparse
    have hwfitems : Json.wfList items = true := hwfarr
    have hwfout := mergeItems_wf hidM hdoiM items out hwfitems hmerge
    refine ⟨hlen, ?_, parseJsonList_arrayFile out hwfout⟩
    intro i hi ho
    obtain ⟨fs, h1, h2⟩ := hspec i hi ho
    rcases mergeProfile_cases h2 with hq | ⟨t, hq⟩
    · exact ⟨fs, h1, Or.inl hq⟩
    · exact ⟨fs, h1, Or.inr ⟨t, hq⟩⟩
  · intro out hmerge
    rw [mergeLines_eq_filterMap] at hmerge
    refine ⟨hmerge, splitNl_ndFile out, ?_⟩
    intro i ho
    have hwfin : Json.wfList ((loadLines input).filterMap id) = true :=
      parseLines_wfList (splitNl input.data)
    have hwfout := mergeItems_wf hidM hdoiM _ out hwfin hmerge
    have hmem : Json.obj (out.get ⟨i, ho⟩) ∈ out.map Json.obj :=
      List.mem_map_of_mem Json.obj (List.get_mem out i ho)
    exact parseJsonList_dumpsL (wfList_mem hwfout hmem)

/-- Witness for C3 at empty mappings and the input text of an empty
array. -/
theorem C3_witness :
    Json.wfList (([] : List (Json × Json)).map Prod.snd) = true ∧
    Json.wfList (([] : List (String × Json)).map Prod.snd) = true ∧
    ((∀ items out, parseJsonStr "[]" = some (.arr items) →
      mergeItems [] [] items = .ok out →
      out.length = items.length ∧
      (∀ i (hi : i < items.length) (ho : i < out.length),
        ∃ fs, items.get ⟨i, hi⟩ = Json.obj fs ∧
          (out.get ⟨i, ho⟩ = fs ∨ ∃ t, out.get ⟨i, ho⟩ = dictSet fs "abstract" t)) ∧
      parseJsonList (arrayFileContent out) = some (.arr (out.map Json.obj))) ∧
    (∀ out, mergeLines [] [] (loadLines "[]") = .ok out →
      mergeItems [] [] ((loadLines "[]").filterMap id) = .ok out ∧
      splitNl (ndFileContent out) = out.map (fun r => dumpsL (.obj r)) ++ [[]] ∧
      ∀ i (ho : i < out.length),
        parseJsonList (dumpsL (.obj (out.get ⟨i, ho⟩))) = some (.obj (out.get ⟨i, ho⟩)))) :=
  ⟨rfl, rfl, C3_writer_output_shape [] [] "[]" rfl rfl⟩

theorem collectStep_not_missing {acc : Needed} {p : JRec}
    (h : abstractMissing p = false) : collectStep acc p = .ok acc := by
  simp [collectStep, h, pure, Except.pure]

theorem collectStream_complete : ∀ stream : List StreamElem,
    (∀ j ∈ stream.filterMap id, ∃ fs, j = Json.obj fs ∧ abstractMissing fs = false) →
    collectStream stream = .ok ⟨[], []⟩
  | [], _ => rfl
  | none :: rest, h => collectStream_complete rest (fun x hx => h x hx)
  | some j :: rest, h => by
      obtain ⟨fs, rfl, hmf⟩ := h j (List.mem_cons_self _ _)
      have ih := collectStream_complete rest
        (fun x hx => h x (List.mem_cons_of_mem _ hx))
      have hred : collectStream (some (Json.obj fs) :: rest) =
          (do
            let acc1 ← collectStep ⟨[], []⟩ fs
            rest.foldlM
              (fun acc elem =>
                match elem with
                | none => pure acc
                | some j => do collectStep acc (← asRec j))
              acc1) := rfl
      rw [hred, collectStep_not_missing hmf]
      exact ih

theorem resolveLoop_saturated : ∀ (elems : List StreamElem) (st st' : ResolveSt),
    st.remainingIds = [] → st.remainingDois = [] →
    resolveLoop st elems = .ok st' → st' = st
  | [], _, _, _, _, h => (Except.ok.inj h).symm
  | none :: rest, st, st', hi, hd, h => resolveLoop_saturated rest st st' hi hd h
  | some j :: rest, st, st', hi, hd, h => by
      match hj : asRec j with
      | .error e =>
          simp only [resolveLoop, hj, bind, Except.bind] at h
          exact Except.noConfusion h
      | .ok fs =>
          match hstep : resolveStep st fs with
          | .error e =>
              simp only [resolveLoop, hj, hstep, bind, Except.bind] at h
              exact Except.noConfusion h
          | .ok st1 =>
              simp only [resolveLoop, hj, hstep, bind, Except.bind, pure, Except.pure] at h
              have h1 : st1 = st := resolveStep_saturated hi hd hstep
              subst h1
              split at h
              · exact (Except.ok.inj h).symm
              · exact resolveLoop_saturated rest st1 st' hi hd h

theorem mergeItems_complete {idM : List (Json × Json)} {doiM : List (String × Json)} :
    ∀ items : List Json,
    (∀ j ∈ items, ∃ fs, j = Json.obj fs ∧ abstractMissing fs = false) →
    ∃ out, mergeItems idM doiM items = .ok out ∧ out.map Json.obj = items
  | [], _ => ⟨[], rfl, rfl⟩
  | j :: rest, h => by
      obtain ⟨fs, rfl, hmf⟩ := h j (List.mem_cons_self _ _)
      obtain ⟨out, hout, hmap⟩ := mergeItems_complete rest
        (fun x hx => h x (List.mem_cons_of_mem _ hx))
      refine ⟨fs :: out, ?_, by simp [hmap]⟩
      have hred : mergeItems idM doiM (Json.obj fs :: rest) =
          (do
            let q ← mergeProfile idM doiM fs
            let qs ← mergeItems idM doiM rest
            pure (q :: qs)) := rfl
      rw [hred, mergeProfile_not_missing hmf, hout]
      rfl

/-- C5: when no profile record is missing its abstract, the collector
produces empty needed-key sets, the resolver (started from those empty
sets) produces empty resolution mappings, and the merge output parses
back to exactly the input's record sequence: in array mode the emitted
file text parses as precisely the input array, and in line mode the
output is one compact line per decoded input record, each parsing back
to that record. -/
theorem C5_no_missing_roundtrip
    (raw : String) (astream : List StreamElem) (st : ResolveSt)
    (hres : resolveLoop (initResolveSt ⟨[], []⟩) astream = .ok st) :
    st.idToAbstract = [] ∧ st.doiToAbstract = [] ∧
    (∀ items, parseJsonStr raw = some (.arr items) →
      (∀ j ∈ items, ∃ fs, j = Json.obj fs ∧ abstractMissing fs = false) →
      collectStream (items.map some) = .ok ⟨[], []⟩ ∧
      ∃ out, mergeItems st.idToAbstract st.doiToAbstract items = .ok out ∧
        out.map Json.obj = items ∧
        parseJsonList (arrayFileContent out) = some (.arr items)) ∧
    ((∀ j ∈ (loadLines raw).filterMap id,
        ∃ fs, j = Json.obj fs ∧ abstractMissing fs = false) →
      collectStream (loadLines raw) = .ok ⟨[], []⟩ ∧
      ∃ out, mergeLines st.idToAbstract st.doiToAbstract (loadLines raw) = .ok out ∧
        out.map Json.obj = (loadLines raw).filterMap id ∧
        splitNl (ndFileContent out) = out.map (fun r => dumpsL (.obj r)) ++ [[]] ∧
        ∀ i (ho : i < out.length),
          parseJsonList (dumpsL (.obj (out.get ⟨i, ho⟩))) =
            some (.obj (out.get ⟨i, ho⟩))) := by
  have hstE : st = initResolveSt ⟨[], []⟩ :=
    resolveLoop_saturated astream (initResolveSt ⟨[], []⟩) st rfl rfl hres
  subst hstE
  refine ⟨rfl, rfl, ?_, ?_⟩
  · intro items hp hcomp
    have hfm : (items.map some).filterMap id = items := by
      simp [List.filterMap_map]
    refine ⟨collectStream_complete (items.map some)
      (fun x hx => hcomp x (by rwa [hfm] at hx)), ?_⟩
    obtain ⟨out, hout, hmap⟩ := mergeItems_complete items hcomp
    have hwfarr : Json.wf (.arr items) = true := parseJsonList_wf hp
    have hwfout : Json.wfList (out.map Json.obj) = true := by
      rw [hmap]
      exact hwfarr
    refine ⟨out, hout, hmap, ?_⟩
    rw [parseJsonList_arrayFile out hwfout, hmap]
  · intro hcomp
    refine ⟨collectStream_complete (loadLines raw) hcomp, ?_⟩
    obtain ⟨out, hout, hmap⟩ := mergeItems_complete ((loadLines raw).filterMap id) hcomp
    have hml : mergeLines (initResolveSt ⟨[], []⟩).idToAbstract
        (initResolveSt ⟨[], []⟩).doiToAbstract (loadLines raw) = .ok out := by
      rw [mergeLines_eq_filterMap]
      exact hout
    refine ⟨out, hml, hmap, splitNl_ndFile out, ?_⟩
    intro i ho
    have hwfout : Json.wfList (out.map Json.obj) = true := by
      rw [hmap]
      exact parseLines_wfList (splitNl raw.data)
    have hmem : Json.obj (out.get ⟨i, ho⟩) ∈ out.map Json.obj :=
      List.mem_map_of_mem Json.obj (List.get_mem out i ho)
    exact parseJsonList_dumpsL (wfList_mem hwfout hmem)

/-- Witness for C5 at the empty-array input and an empty abstracts
stream. -/
theorem C5_witness :
    resolveLoop (initResolveSt ⟨[], []⟩) [] = .ok (⟨[], [], [], []⟩ : ResolveSt) ∧
    ((⟨[], [], [], []⟩ : ResolveSt).idToAbstract = [] ∧
     (⟨[], [], [], []⟩ : ResolveSt).doiToAbstract = [] ∧
     (∀ items, parseJsonStr "[]" = some (.arr items) →
       (∀ j ∈ items, ∃ fs, j = Json.obj fs ∧ abstractMissing fs = false) →
       collectStream (items.map some) = .ok ⟨[], []⟩ ∧
       ∃ out, mergeItems (⟨[], [], [], []⟩ : ResolveSt).idToAbstract
           (⟨[], [], [], []⟩ : ResolveSt).doiToAbstract items = .ok out ∧
         out.map Json.obj = items ∧
         parseJsonList (arrayFileContent out) = some (.arr items)) ∧
     ((∀ j ∈ (loadLines "[]").filterMap id,
         ∃ fs, j = Json.obj fs ∧ abstractMissing fs = false) →
       collectStream (loadLines "[]") = .ok ⟨[], []⟩ ∧
       ∃ out, mergeLines (⟨[], [], [], []⟩ : ResolveSt).idToAbstract
           (⟨[], [], [], []⟩ : ResolveSt).doiToAbstract (loadLines "[]") = .ok out ∧
         out.map Json.obj = (loadLines "[]").filterMap id ∧
         splitNl (ndFileContent out) = out.map (fun r => dumpsL (.obj r)) ++ [[]] ∧
         ∀ i (ho : i < out.length),
           parseJsonList (dumpsL (.obj (out.get ⟨i, ho⟩))) =
             some (.obj (out.get ⟨i, ho⟩)))) :=
  ⟨rfl, C5_no_missing_roundtrip "[]" [] ⟨[], [], [], []⟩ rfl⟩

theorem mergeProfileFlag_fst (idM : List (Json × Json)) (doiM : List (String × Json))
    (p : JRec) :
    Except.map Prod.fst (mergeProfileFlag idM doiM p) = mergeProfile idM doiM p := by
  simp only [mergeProfileFlag, mergeProfile, bind, Except.bind, pure, Except.pure]
  repeat' split
  all_goals rfl

theorem mergeProfileFlag_flag {idM : List (Json × Json)} {doiM : List (String × Json)}
    {p q : JRec} {flag : Bool}
    (h : mergeProfileFlag idM doiM p = .ok (q, flag)) :
    (flag = false → q = p) ∧
    (flag = true → abstractMissing p = true ∧ ∃ t, q = dictSet p "abstract" t) := by
  by_cases hm : abstractMissing p = true
  · match hoid : getOid p "publication_id" with
    | .error e => simp [mergeProfileFlag, hm, hoid, bind, Except.bind] at h
    | .ok pubId =>
        simp only [mergeProfileFlag, hm, if_true, bind, Except.bind, hoid] at h
        match hhit : (match pubId with
            | some j => if j.truthy = true then dictGet idM j else none
            | none => none) with
        | some t =>
            simp only [hhit, pure, Except.pure, Except.ok.injEq, Prod.mk.injEq] at h
            refine ⟨fun hfl => ?_, fun _ => ⟨hm, t, h.1.symm⟩⟩
            rw [← h.2] at hfl
            exact Bool.noConfusion hfl
        | none =>
            simp only [hhit] at h
            match hdoi : dictGet p "publication_DOI" with
            | none =>
                simp only [hdoi, pure, Except.pure, Except.ok.injEq, Prod.mk.injEq] at h
                refine ⟨fun _ => h.1.symm, fun hfl => ?_⟩
                rw [← h.2] at hfl
                exact Bool.noConfusion hfl
            | some j =>
                simp only [hdoi] at h
                by_cases htr : j.truthy = true
                · simp only [htr, if_true] at h
                  match hsl : pyStripLower j with
                  | .error e =>
                      simp only [hsl] at h
                      exact Except.noConfusion h
                  | .ok key =>
                      simp only [hsl, bind, Except.bind] at h
                      match hget : dictGet doiM key with
                      | some t =>
                          simp only [hget, pure, Except.pure, Except.ok.injEq,
                            Prod.mk.injEq] at h
                          refine ⟨fun hfl => ?_, fun _ => ⟨hm, t, h.1.symm⟩⟩
                          rw [← h.2] at hfl
                          exact Bool.noConfusion hfl
                      | none =>
                          simp only [hget, pure, Except.pure, Except.ok.injEq,
                            Prod.mk.injEq] at h
                          refine ⟨fun _ => h.1.symm, fun hfl => ?_⟩
                          rw [← h.2] at hfl
                          exact Bool.noConfusion hfl
                · simp only [htr, Bool.false_eq_true, if_false, pure, Except.pure,
                    Except.ok.injEq, Prod.mk.injEq] at h
                  refine ⟨fun _ => h.1.symm, fun hfl => ?_⟩
                  rw [← h.2] at hfl
                  exact Bool.noConfusion hfl
  · rw [Bool.not_eq_true] at hm
    have hred : mergeProfileFlag idM doiM p = .ok (p, false) := by
      simp [mergeProfileFlag, hm, pure, Except.pure]
    rw [hred] at h
    have h2 := Except.ok.inj h
    injection h2 with hq hf
    refine ⟨fun _ => hq.symm, fun hfl => ?_⟩
    rw [← hf] at hfl
    exact Bool.noConfusion hfl

/-- C6 (the split-output variant is modelled from the spec, its source
not being among the provided files): the third positional argument
selects the mode: a file path runs the single-output script on the two
inputs and writes its content to that file, a directory path runs the
split-output variant; whenever the split-output run produces output, it
is exactly two pretty-printed (2-space-indent) JSON array files under
the fixed names in that directory, the first holding every merged
profile and the second only those flagged as newly updated; and a
profile is flagged exactly when its missing abstract was filled in,
unflagged profiles passing through unchanged. -/
theorem C6_third_argument_modes (raw abs dir path : String) :
    cliRun raw abs (.file path) =
      (mainRun raw abs).map (Option.map (fun content => [(path, content)])) ∧
    cliRun raw abs (.dir dir) = mainRunModeB raw abs dir ∧
    (∀ outs, mainRunModeB raw abs dir = .ok (some outs) →
      ∃ (st : ResolveSt) (stream2 : List StreamElem) (pairs : List (JRec × Bool)),
        mergeElemsFlag st.idToAbstract st.doiToAbstract stream2 = .ok pairs ∧
        outs = [ (dir ++ "/" ++ modeB_allFileName,
                  String.mk (prettyL 0 (Json.arr ((pairs.map Prod.fst).map Json.obj)))),
                 (dir ++ "/" ++ modeB_updatedFileName,
                  String.mk (prettyL 0 (Json.arr
                    (((pairs.filter Prod.snd).map Prod.fst).map Json.obj)))) ]) ∧
    (∀ (idM : List (Json × Json)) (doiM : List (String × Json)) (p q : JRec) (flag : Bool),
      mergeProfileFlag idM doiM p = .ok (q, flag) →
      mergeProfile idM doiM p = .ok q ∧
      (flag = false → q = p) ∧
      (flag = true → abstractMissing p = true ∧ ∃ t, q = dictSet p "abstract" t)) := by
  refine ⟨rfl, rfl, ?_, ?_⟩
  · intro outs h
    match hd1 : detect_json_format raw with
    | none =>
        simp only [mainRunModeB, hd1, pure, Except.pure] at h
        exact Option.noConfusion (Except.ok.inj h)
    | some rawFmt =>
        simp only [mainRunModeB, hd1, bind, Except.bind] at h
        match hs1 : loadStream rawFmt raw with
        | .error e => simp only [hs1] at h; exact Except.noConfusion h
        | .ok stream =>
            simp only [hs1] at h
            match hc : collectStream stream with
            | .error e => simp only [hc] at h; exact Except.noConfusion h
            | .ok nd =>
                simp only [hc] at h
                match hd2 : detect_json_format abs with
                | none =>
                    simp only [hd2, pure, Except.pure] at h
                    exact Option.noConfusion (Except.ok.inj h)
                | some absFmt =>
                    simp only [hd2] at h
                    match hs2 : loadStream absFmt abs with
                    | .error e => simp only [hs2] at h; exact Except.noConfusion h
                    | .ok astream =>
                        simp only [hs2] at h
                        match hr : resolveLoop (initResolveSt nd) astream with
                        | .error e => simp only [hr] at h; exact Except.noConfusion h
                        | .ok st =>
                            simp only [hr] at h
                            match hm : mergeElemsFlag st.idToAbstract
                                st.doiToAbstract stream with
                            | .error e => simp only [hm] at h; exact Except.noConfusion h
                            | .ok pairs =>
                                simp only [hm, pure, Except.pure] at h
                                refine ⟨st, stream, pairs, hm, ?_⟩
                                exact (Option.some.inj (Except.ok.inj h)).symm
  · intro idM doiM p q flag h
    have hfst := mergeProfileFlag_fst idM doiM p
    rw [h] at hfst
    obtain ⟨h1, h2⟩ := mergeProfileFlag_flag h
    exact ⟨by rw [← hfst]; rfl, h1, h2⟩

/-- Witness for C6 at concrete inputs and paths. -/
theorem C6_witness :
    cliRun "[]" "[]" (.file "p") =
      (mainRun "[]" "[]").map (Option.map (fun content => [("p", content)])) ∧
    cliRun "[]" "[]" (.dir "d") = mainRunModeB "[]" "[]" "d" ∧
    (∀ outs, mainRunModeB "[]" "[]" "d" = .ok (some outs) →
      ∃ (st : ResolveSt) (stream2 : List StreamElem) (pairs : List (JRec × Bool)),
        mergeElemsFlag st.idToAbstract st.doiToAbstract stream2 = .ok pairs ∧
        outs = [ ("d" ++ "/" ++ modeB_allFileName,
                  String.mk (prettyL 0 (Json.arr ((pairs.map Prod.fst).map Json.obj)))),
                 ("d" ++ "/" ++ modeB_updatedFileName,
                  String.mk (prettyL 0 (Json.arr
                    (((pairs.filter Prod.snd).map Prod.fst).map Json.obj)))) ]) ∧
    (∀ (idM : List (Json × Json)) (doiM : List (String × Json)) (p q : JRec) (flag : Bool),
      mergeProfileFlag idM doiM p = .ok (q, flag) →
      mergeProfile idM doiM p = .ok q ∧
      (flag = false → q = p) ∧
      (flag = true → abstractMissing p = true ∧ ∃ t, q = dictSet p "abstract" t)) :=
  C6_third_argument_modes "[]" "[]" "d" "p"
